import Mathlib

/-
  Verification development for the bootstrap core of a static-partitioning
  hypervisor (src/core/vmm.c).

  Each C function relevant to the properties below is shallowly embedded as
  an executable Lean definition.  Lock-protected critical sections are
  serialized (a spinlock admits a total order of its critical sections);
  cross-CPU interleaving is captured either by an explicit step relation
  (the top-level CPU assignment passes of vmm_init) or by schedule
  parameters giving the serialization order of the lock-protected claim
  attempts (the per-level claiming of vmm_create_vms).  Machine integers
  are modelled as Nat, with an explicit modulus where overflow matters.
-/

/-! ### VMID allocator, vmm.c lines 51-62

  uint64_t vmm_alloc_vmid(): a static 64-bit counter protected by a
  spinlock; the function returns the pre-incremented counter, so the first
  issued value is 1.  The lock serializes concurrent calls, hence a
  system-wide history of calls is a sequence of counter states.  The
  counter is a uint64_t, so the increment wraps modulo 2^64. -/

def vmm_alloc_vmid (id : Nat) : Nat × Nat :=
  let id' := (id + 1) % 2 ^ 64
  (id', id')

/-- The vmids issued by k successive (lock-serialized) calls to
    vmm_alloc_vmid starting from counter state s. -/
def vmidTrace : Nat → Nat → List Nat
  | _, 0 => []
  | s, k + 1 =>
    let p := vmm_alloc_vmid s
    p.2 :: vmidTrace p.1 k

/-! ### Dynamic VM manager, vmm.c lines 127-158

  vmm_init_dynamic allocates a zeroed vm struct (modelled by a fresh
  identifier from a counter), allocates a fresh vmid, initializes the VM,
  pool-allocates one child-relationship node from partition->nodes and
  pushes it onto cpu.vcpu->vmstack_children.

  vmm_destroy_dynamic walks cpu.vcpu->vmstack_children, removes and frees
  every node whose referenced vcpu belongs to the target vm (the loop has
  no break), then calls vm_destroy_dynamic and vmm_free_vm_struct
  unconditionally; vmm_free_vm_struct (lines 44-49) zeroes the struct
  pages before freeing them.

  Modelled from the spec: the intrusive list primitives (list.h) and the
  node pool (objcache.h) are not part of src/.  Following the spec's data
  model, the child list is modelled as the list of vm identifiers
  referenced by its nodes (node->data is the child vcpu, which determines
  child->vm), list_foreach as traversal of that list, list_rm as removal,
  and the node pool by its free-slot count (objcache_alloc decrements it,
  objcache_free increments it). -/

structure DynSt where
  free : Nat
  children : List Nat
  nextVm : Nat
  nextVmid : Nat
  torn : List Nat
  freed : List Nat
deriving DecidableEq

/-- vmm.c lines 127-143: struct vm* vmm_init_dynamic(...).  Returns the
    new state and the identifier of the vm struct it allocated. -/
def vmm_init_dynamic (st : DynSt) : DynSt × Nat :=
  let vm := st.nextVm
  ({ st with
      nextVm := st.nextVm + 1,
      nextVmid := st.nextVmid + 1,
      free := st.free - 1,
      children := vm :: st.children }, vm)

/-- vmm.c lines 145-158: void vmm_destroy_dynamic(struct vm *vm). -/
def vmm_destroy_dynamic (st : DynSt) (vm : Nat) : DynSt :=
  let k := st.children.count vm
  { st with
      children := st.children.filter (fun x => x ≠ vm),
      free := st.free + k,
      torn := st.torn ++ [vm],
      freed := st.freed ++ [vm] }

/-! ### Partition bootstrap publish protocol, vmm.c lines 252-277

  The elected partition master allocates and maps the partition region,
  initializes it, issues fence_ord_write, and then performs the single
  write of the page-table entry into vm_assign[vm_id].vm_shared_table
  (zeroed by memset beforehand).  A follower spins:
      while (vm_assign[vm_id].vm_shared_table == 0);
  and then re-reads the field and installs the read value into its own
  page table.  There is exactly one writer and one write, so the value of
  the field as a function of (discrete) time is 0 before the publication
  instant and the published pte value afterwards. -/

/-- Value of vm_assign[vm_id].vm_shared_table at time t, when the master's
    single publication of value P happens at time pub. -/
def fieldAt (pub P t : Nat) : Nat :=
  if t < pub then 0 else P

/-- The follower's spin loop (vmm.c line 273): starting at time t, poll the
    shared field once per instant until it reads non-zero; returns the exit
    time.  fuel bounds the number of polls so the model stays executable;
    the liveness lemma shows any fuel past the publication instant
    suffices. -/
def spinUntilNonzero (pub P : Nat) : Nat → Nat → Option Nat
  | 0, _ => none
  | fuel + 1, t => if fieldAt pub P t ≠ 0 then some t else spinUntilNonzero pub P fuel (t + 1)

/-- vmm.c lines 273-275: after the spin loop exits, the follower re-reads
    the field and installs that value into its own page table (the re-read
    happens strictly after the exit read). -/
def followerInstall (pub P fuel start : Nat) : Option Nat :=
  (spinUntilNonzero pub P fuel start).map (fun t => fieldAt pub P (t + 1))

/-! ### Top-level CPU assignment, vmm.c lines 160-248

  vmm_init is executed by every physical CPU.  After the global master
  allocates and zeroes the assignment table (one struct vm_assignment per
  top-level VM configuration), the CPUs run two passes separated by
  cpu_sync_barrier(&cpu_glb_sync):

  - affinity pass (lines 201-220): each CPU scans entries in index order,
    stopping at its first claim; for an entry whose cpu_affinity contains
    the CPU it takes the entry lock and either elects itself master
    (if !vm_assign[i].master, with no capacity check) or claims a slot if
    ncpus is below the configured cpu_num;
  - fallback pass (lines 227-248): a CPU that claimed nothing scans all
    entries and claims the first whose ncpus is below cpu_num, electing
    itself master if none was elected.

  The model is a small-step transition system: each loop iteration of a
  CPU is one atomic step (the table mutation is under the entry spinlock,
  and the other reads of an iteration touch only read-only configuration
  or CPU-local state), and steps of distinct CPUs interleave arbitrarily.
  CPUs are identified with indices 0..n-1; the barrier between the passes
  is a step enabled once every CPU finished its current pass. -/

structure VMCfg where
  cpu_affinity : Nat
  cpu_num : Nat
deriving DecidableEq

instance : Inhabited VMCfg := ⟨⟨0, 0⟩⟩

/-- One entry of the transient assignment table (struct vm_assignment,
    vmm.c lines 170-176), zeroed by memset on allocation.  The
    vm_shared_table field is modelled separately by the publish-protocol
    model above. -/
structure AssignEntry where
  master : Bool
  ncpus : Nat
  cpus : Nat
deriving DecidableEq

instance : Inhabited AssignEntry := ⟨⟨false, 0, 0⟩⟩

/-- CPU-local state of vmm_init (lines 193-196 and the loop counter):
    assigned, master, vm_id, and the loop index of the current pass. -/
structure CpuSt where
  assigned : Bool
  master : Bool
  vm_id : Nat
  idx : Nat
deriving DecidableEq

instance : Inhabited CpuSt := ⟨⟨false, false, 0, 0⟩⟩

/-- Global state: the shared assignment table, the per-CPU local states,
    and the phase (0 = affinity pass, 1 = fallback pass, 2 = done). -/
structure GSt where
  table : List AssignEntry
  cst : List CpuSt
  phase : Nat
deriving DecidableEq

/-- State after the global master's memset of the table (line 188) and the
    first cpu_glb_sync barrier (line 191), for n CPUs. -/
def initG (cfg : List VMCfg) (n : Nat) : GSt :=
  ⟨List.replicate cfg.length default, List.replicate n default, 0⟩

/-- One iteration of the affinity-pass loop (lines 201-220) of CPU c:
    if the entry at the CPU's current index has the CPU in its affinity
    mask, attempt the lock-protected claim; in the master branch (line
    204) there is no capacity check. -/
def vmm_init_pass1_step (cfg : List VMCfg) (c : Nat) (s : GSt) : GSt :=
  let cs := s.cst.getD c default
  let i := cs.idx
  let vc := cfg.getD i default
  let e := s.table.getD i default
  if vc.cpu_affinity.testBit c then
    if e.master = false then
      { s with
        table := s.table.set i ⟨true, e.ncpus + 1, e.cpus ||| 2 ^ c⟩,
        cst := s.cst.set c ⟨true, true, i, i + 1⟩ }
    else if e.ncpus < vc.cpu_num then
      { s with
        table := s.table.set i ⟨e.master, e.ncpus + 1, e.cpus ||| 2 ^ c⟩,
        cst := s.cst.set c ⟨true, cs.master, i, i + 1⟩ }
    else { s with cst := s.cst.set c ⟨cs.assigned, cs.master, cs.vm_id, i + 1⟩ }
  else { s with cst := s.cst.set c ⟨cs.assigned, cs.master, cs.vm_id, i + 1⟩ }

/-- One iteration of the fallback-pass loop (lines 227-248) of CPU c: the
    capacity check guards both branches; the master branch is taken when
    no master was elected for the entry. -/
def vmm_init_pass2_step (cfg : List VMCfg) (c : Nat) (s : GSt) : GSt :=
  let cs := s.cst.getD c default
  let i := cs.idx
  let vc := cfg.getD i default
  let e := s.table.getD i default
  if e.ncpus < vc.cpu_num then
    if e.master = false then
      { s with
        table := s.table.set i ⟨true, e.ncpus + 1, e.cpus ||| 2 ^ c⟩,
        cst := s.cst.set c ⟨true, true, i, i + 1⟩ }
    else
      { s with
        table := s.table.set i ⟨e.master, e.ncpus + 1, e.cpus ||| 2 ^ c⟩,
        cst := s.cst.set c ⟨true, cs.master, i, i + 1⟩ }
  else { s with cst := s.cst.set c ⟨cs.assigned, cs.master, cs.vm_id, i + 1⟩ }

/-- A CPU is done with the current pass when its loop exited: either it
    claimed an entry (the !assigned loop condition) or it ran out of
    entries. -/
def cpuDone (cfg : List VMCfg) (cs : CpuSt) : Bool :=
  cs.assigned || decide (cfg.length ≤ cs.idx)

/-- Interleaving semantics of vmm_init lines 193-250: any not-yet-done CPU
    may perform its next loop iteration; the barrier steps (lines 222 and
    250) fire once all CPUs are done with the current pass, the first one
    resetting every loop index for the fallback pass. -/
inductive VmmInitStep (cfg : List VMCfg) : GSt → GSt → Prop where
  | p1 (c : Nat) (s : GSt) (hph : s.phase = 0) (hc : c < s.cst.length)
      (hna : (s.cst.getD c default).assigned = false)
      (hi : (s.cst.getD c default).idx < cfg.length) :
      VmmInitStep cfg s (vmm_init_pass1_step cfg c s)
  | bar1 (s : GSt) (hph : s.phase = 0)
      (hall : ∀ c, c < s.cst.length → cpuDone cfg (s.cst.getD c default) = true) :
      VmmInitStep cfg s
        ⟨s.table, s.cst.map (fun cs => ⟨cs.assigned, cs.master, cs.vm_id, 0⟩), 1⟩
  | p2 (c : Nat) (s : GSt) (hph : s.phase = 1) (hc : c < s.cst.length)
      (hna : (s.cst.getD c default).assigned = false)
      (hi : (s.cst.getD c default).idx < cfg.length) :
      VmmInitStep cfg s (vmm_init_pass2_step cfg c s)
  | bar2 (s : GSt) (hph : s.phase = 1)
      (hall : ∀ c, c < s.cst.length → cpuDone cfg (s.cst.getD c default) = true) :
      VmmInitStep cfg s ⟨s.table, s.cst, 2⟩

/-- Reachability from the post-memset state: every interleaving of the two
    assignment passes of n CPUs over configuration cfg. -/
def VmmInitReach (cfg : List VMCfg) (n : Nat) (s : GSt) : Prop :=
  Relation.ReflTransGen (VmmInitStep cfg) (initG cfg n) s

/-- Number of CPUs whose local state says they claimed entry i as master. -/
def mastersFor (s : GSt) (i : Nat) : Nat :=
  s.cst.countP (fun cs => cs.assigned && cs.master && (cs.vm_id == i))

/-- Number of CPUs whose local state says they claimed entry i. -/
def claimedFor (s : GSt) (i : Nat) : Nat :=
  s.cst.countP (fun cs => cs.assigned && (cs.vm_id == i))

/-- The master flag of table entry i. -/
def tableMaster (s : GSt) (i : Nat) : Bool :=
  (s.table.getD i default).master

/-! ### Outcome of vmm_init for one CPU, vmm.c lines 160-166 and 252-296

  Line 162: if vm_config_ptr->vmlist_size == 0 the CPU idles immediately
  (cpu_idle, line 165), before the assignment protocol.  Afterwards the
  partition-bootstrap block (line 252) and the tree-construction block
  (line 289) are both guarded by the local assigned flag, and an
  unassigned CPU falls through to cpu_idle() at line 296. -/

inductive BootOutcome where
  | idleNoVMs
  | idleUnassigned
  | runsVM (vmId : Nat)
deriving DecidableEq

/-- The control-flow outcome of vmm_init for a CPU whose assignment-phase
    local state is cs (vmm.c lines 160-166, 289-296). -/
def cpuBootOutcome (cfg : List VMCfg) (cs : CpuSt) : BootOutcome :=
  if cfg.length = 0 then BootOutcome.idleNoVMs
  else if cs.assigned then BootOutcome.runsVM cs.vm_id
  else BootOutcome.idleUnassigned

/-- Guard of the partition-bootstrap block, vmm.c line 252. -/
def runsPartitionBootstrap (cs : CpuSt) : Bool := cs.assigned

/-- Guard of the VM-tree construction block, vmm.c line 289. -/
def runsTreeBuild (cs : CpuSt) : Bool := cs.assigned

/-! ### Recursive VM tree construction, vmm.c lines 64-125

  vmm_create_vms(config, parent) is executed by every CPU that enters the
  call (the cohort): the partition master allocates a zeroed vm struct and
  resets partition->init.ncpus (lines 66-69, only if it is in the cohort);
  a barrier; then a two-pass claiming over the single shared counter
  partition->init.ncpus under partition->lock (lines 83-104), the claimer
  becoming level master when it sees ncpus == 0; the claimed CPUs then all
  run vm_init and iterate the configuration's children in order, each
  recursing into every child with a barrier after each child (lines
  106-121); a CPU whose recursive call returned a non-NULL vcpu (i.e. it
  was claimed into that child) pool-allocates a node referencing the child
  vcpu and pushes it onto its own vcpu->vmstack_children.

  The barriers make construction sequential across siblings, and the
  partition lock serializes the claim attempts of one pass of one level,
  so a run is determined by, per level, the order in which the cohort's
  CPUs take the lock in each pass.  These orders are the model's schedule.
  The simultaneous execution of a call by all cohort CPUs collapses to one
  sequential function: per level, the shared effects are the (at most one)
  reset and allocation by the partition master, the claim sequence, the
  level master's vmid allocation, and the per-claimed-CPU node pushes.

  vm structs are identified by the order of their allocation (1, 2, ...);
  partition->init.curr_vm is the currVm field, 0 standing for the NULL in
  the memset partition.  A recorded child-relationship node is the triple
  (vm of the parent vcpu, cpu id, vm the child vcpu belongs to).  Each
  level appends a log entry recording the counter evolution and claim
  results of that level. -/

inductive VMConfig where
  | mk (cpu_affinity : Nat) (cpu_num : Nat) (children : List VMConfig)

def VMConfig.cpu_affinity : VMConfig → Nat
  | .mk a _ _ => a

def VMConfig.cpu_num : VMConfig → Nat
  | .mk _ n _ => n

def VMConfig.children : VMConfig → List VMConfig
  | .mk _ _ cs => cs

/-- Per-level schedule: the serialization orders of the lock-protected
    claim attempts of pass 1 and pass 2, and the schedules of the child
    levels in configuration order. -/
inductive Sched where
  | mk (ord1 : List Nat) (ord2 : List Nat) (children : List Sched)

def Sched.ord1 : Sched → List Nat
  | .mk o _ _ => o

def Sched.ord2 : Sched → List Nat
  | .mk _ o _ => o

def Sched.children : Sched → List Sched
  | .mk _ _ cs => cs

/-- Pass 1 of the per-level claiming (vmm.c lines 83-90), for the CPUs in
    lock order: a CPU claims iff the counter is below cpu_num and its bit
    is in cpu_affinity; it becomes level master iff it sees the counter at
    0.  Returns the final counter and the claimers with their master
    flag, in claim order. -/
def claim1 (aff num : Nat) : List Nat → Nat → Nat × List (Nat × Bool)
  | [], n => (n, [])
  | c :: rest, n =>
    if n < num ∧ aff.testBit c = true then
      let pr := claim1 aff num rest (n + 1)
      (pr.1, (c, n == 0) :: pr.2)
    else claim1 aff num rest n

/-- Pass 2 of the per-level claiming (vmm.c lines 98-104) for the CPUs not
    assigned in pass 1: same, without the affinity test. -/
def claim2 (num : Nat) : List Nat → Nat → Nat × List (Nat × Bool)
  | [], n => (n, [])
  | c :: rest, n =>
    if n < num then
      let pr := claim2 num rest (n + 1)
      (pr.1, (c, n == 0) :: pr.2)
    else claim2 num rest n

/-- The complete two-pass claiming of one level of vmm_create_vms (lines
    83-104), from counter value n: pass 1 in lock order ord1, then (after
    the barrier) pass 2 in lock order ord2 restricted to the CPUs that
    pass 1 did not assign (their local assigned flag). -/
def claimLevel (aff num : Nat) (ord1 ord2 : List Nat) (n : Nat) :
    Nat × List (Nat × Bool) :=
  let p1 := claim1 aff num ord1 n
  let rem := ord2.filter (fun c => !(p1.2.any (fun q => q.1 == c)))
  let p2 := claim2 num rem p1.1
  (p2.1, p1.2 ++ p2.2)

/-- Log entry of one executed level: the parent vm (none for the top
    level), the vm struct used (partition->init.curr_vm), whether the
    partition master was in the cohort (so the struct was freshly
    allocated and the counter reset), the counter before and after the
    claiming, the configured cpu_num, and the claim results. -/
structure LevelLog where
  par : Option Nat
  vm : Nat
  reset : Bool
  startN : Nat
  endN : Nat
  cpuNum : Nat
  claimed : List (Nat × Bool)
deriving DecidableEq

instance : Inhabited LevelLog := ⟨⟨none, 0, false, 0, 0, 0, []⟩⟩

/-- Shared partition state threaded through the construction: curr_vm and
    ncpus of partition->init, the vm-struct allocation counter, the vmid
    counter, the multiset of recorded child-relationship nodes (as a
    list), and the level log. -/
structure PSt where
  currVm : Nat
  ncpus : Nat
  nextVm : Nat
  nextVmid : Nat
  edges : List (Nat × Nat × Nat)
  log : List LevelLog
deriving DecidableEq

/-- Partition state right after the partition-bootstrap memset of the
    partition region (vmm.c line 262): curr_vm is NULL, ncpus is 0, no vm
    struct allocated yet (identifiers start at 1), no vmid issued. -/
def pstInit : PSt :=
  ⟨0, 0, 1, 0, [], []⟩

/-- vmm.c lines 66-75: if the partition master is in the cohort it
    allocates a fresh zeroed vm struct into partition->init.curr_vm and
    resets partition->init.ncpus; the barrier then publishes this to the
    cohort. -/
def levelEnter (pm : Nat) (parts : List Nat) (st : PSt) : PSt :=
  if parts.contains pm then
    { st with currVm := st.nextVm, nextVm := st.nextVm + 1, ncpus := 0 }
  else st

/-- The two claiming passes of one level restricted to the cohort: the
    lock orders are the schedule's orders filtered to the CPUs actually
    executing the call. -/
def levelClaim (aff num : Nat) (parts : List Nat) (sd : Sched) (n : Nat) :
    Nat × List (Nat × Bool) :=
  claimLevel aff num (sd.ord1.filter (fun c => parts.contains c))
    (sd.ord2.filter (fun c => parts.contains c)) n

/-- vmm.c lines 114-119: given the result r of the recursive call for one
    child, the CPUs claimed into the child (those whose call returned a
    non-NULL vcpu) each allocate a node referencing their child vcpu and
    push it onto their own parent vcpu's list: one node (vm, cpu, child
    vm) per claimed CPU. -/
def childEdges (vm : Nat) (r : PSt × Nat × List (Nat × Bool)) :
    List (Nat × Nat × Nat) :=
  r.2.2.map (fun q => (vm, q.1, r.2.1))

/-- One iteration of the children loop (vmm.c lines 111-121), executed by
    the cohort claimed at the current level: recurse into the child with
    the next child schedule, then record the child-relationship nodes. -/
def childStep
    (f : Option Nat → VMConfig → List Nat → Sched → PSt → PSt × Nat × List (Nat × Bool))
    (vm : Nat) (parts2 : List Nat) (acc : PSt × List Sched) (c : VMConfig) :
    PSt × List Sched :=
  let rr := f (some vm) c parts2 (acc.2.headD (Sched.mk [] [] [])) acc.1
  ({ rr.1 with edges := rr.1.edges ++ childEdges vm rr }, acc.2.tail)

/-- One level of vmm_create_vms, parameterized by the function f used for
    the recursive calls on the children.  pm is the partition master CPU
    (partition->master), par the vm of the parent vcpu, parts the cohort
    of CPUs executing the call. -/
def vmm_create_vms_level (pm : Nat)
    (f : Option Nat → VMConfig → List Nat → Sched → PSt → PSt × Nat × List (Nat × Bool))
    (par : Option Nat) (cfg : VMConfig) (parts : List Nat) (sd : Sched) (st : PSt) :
    PSt × Nat × List (Nat × Bool) :=
  match cfg with
  | VMConfig.mk aff num cs =>
    let st1 := levelEnter pm parts st
    let vm := st1.currVm
    let pr := levelClaim aff num parts sd st1.ncpus
    let st2 := { st1 with
        ncpus := pr.1,
        log := st1.log ++ [⟨par, vm, parts.contains pm, st1.ncpus, pr.1, num, pr.2⟩] }
    let st3 := if pr.2.any (fun q => q.2) then
        { st2 with nextVmid := st2.nextVmid + 1 }
      else st2
    if pr.2.isEmpty then (st3, vm, pr.2)
    else
      ((cs.foldl (childStep f vm (pr.2.map (fun q => q.1))) (st3, sd.children)).1,
        vm, pr.2)

/-- vmm.c lines 64-125, fuel-indexed (the fuel bounds the recursion depth;
    out of fuel nothing happens and no CPU is claimed — the general
    theorems hold for every fuel, and the hypotheses of the exactness
    theorems force the fuel to cover the configuration depth).  Returns
    the final shared state, the vm struct the level used, and the CPUs
    claimed at this level with their master flag; the per-CPU return value
    of the C function is non-NULL exactly for the claimed CPUs. -/
def vmm_create_vms : Nat → Nat → Option Nat → VMConfig → List Nat → Sched → PSt →
    PSt × Nat × List (Nat × Bool)
  | 0, _ => fun _ _ _ _ st => (st, 0, [])
  | fuel + 1, pm => vmm_create_vms_level pm (vmm_create_vms fuel pm)

/-! ### Configuration-tree measures and the expected edge set

  Fuel-indexed tree walks over the configuration, used to state the
  exactness properties of the builder: countF counts configuration nodes,
  numberF numbers the nodes in the builder's allocation (depth-first)
  order starting from a given next identifier and lists the tree's edges
  as (parent identifier, child identifier) pairs, each subtree's edges
  before the edge to it from its parent, matching the order in which the
  builder records nodes. -/

def countStep (g : VMConfig → Nat) : VMConfig → Nat
  | .mk _ _ cs => 1 + (cs.map g).sum

def countF : Nat → VMConfig → Nat
  | 0 => fun _ => 0
  | k + 1 => countStep (countF k)

def numFold (g : Nat → VMConfig → Nat × List (Nat × Nat)) (v : Nat)
    (cs : List VMConfig) (acc : Nat × List (Nat × Nat)) : Nat × List (Nat × Nat) :=
  cs.foldl
    (fun acc c =>
      let pr := g acc.1 c
      (pr.1, acc.2 ++ pr.2 ++ [(v, acc.1)]))
    acc

def numberStep (g : Nat → VMConfig → Nat × List (Nat × Nat)) (next : Nat) :
    VMConfig → Nat × List (Nat × Nat)
  | .mk _ _ cs => numFold g next cs (next + 1, ([] : List (Nat × Nat)))

def numberF : Nat → Nat → VMConfig → Nat × List (Nat × Nat)
  | 0 => fun next _ => (next, [])
  | k + 1 => numberStep (numberF k)

/-- Sufficient condition for the builder to construct the whole
    configuration tree: at every node the partition master pm is the first
    CPU to take the lock in pass 1, its bit is in the node's affinity
    mask, the required count is at least 1 (so pm claims and resets the
    counter everywhere), the pass orders list each CPU at most once, and
    each child has a schedule. -/
def GoodStep (pm : Nat) (g : VMConfig → Sched → Bool) : VMConfig → Sched → Bool
  | .mk aff num cs, .mk o1 o2 sds =>
    (o1.head? == some pm) && aff.testBit pm && decide (0 < num) &&
    decide o1.Nodup && decide o2.Nodup && decide (cs.length ≤ sds.length) &&
    ((cs.zip sds).all (fun p => g p.1 p.2))

def GoodF : Nat → Nat → VMConfig → Sched → Bool
  | 0, _ => fun _ _ => false
  | k + 1, pm => GoodStep pm (GoodF k pm)

/-- The child-relationship nodes a level log entry accounts for: one node
    per CPU claimed into the level, owned by that CPU's parent vcpu —
    none for the top level, which has no parent. -/
def parEdges (par : Option Nat) (vm : Nat) (cl : List (Nat × Bool)) :
    Multiset (Nat × Nat × Nat) :=
  match par with
  | none => 0
  | some p => ↑(cl.map (fun q => (p, q.1, vm)))

/-- All child-relationship nodes accounted for by a level log. -/
def edgesOfLog (L : List LevelLog) : Multiset (Nat × Nat × Nat) :=
  (L.map (fun e => parEdges e.par e.vm e.claimed)).sum

/-- Number of level masters among the claim results of one level. -/
def mastersCount (cl : List (Nat × Bool)) : Nat :=
  cl.countP (fun q => q.2)

/-! ### Concrete scenarios

  Scenario T: one top-level configuration with required count 2 and one
  child also with required count 2, CPUs 0 and 1, partition master 0,
  lock order 0 then 1 at both levels.  Both CPUs are claimed into the
  child, so both record a child-relationship node for the single
  configuration edge.

  Scenario S: root (count 3) with one child D (count 2) which has two
  children G1 (count 1) and G2 (count 3); CPUs 0, 1, 2, partition master
  0.  At level D the lock order is 1, 2, 0, so CPUs 1 and 2 fill D and
  the partition master 0 is left unclaimed.  The calls for G1 and G2 then
  run without the partition master: partition->init.curr_vm and
  partition->init.ncpus are not reset, so at G1 the stale counter 2
  exceeds the required count 1 for the whole level, and at G2 CPU 1 is
  claimed while the stale counter is non-zero, so no level master is
  elected there.

  Scenario Z: the top-level assignment table of vmm_init with a single
  VM configuration whose required count is 0 but whose affinity contains
  CPU 0: the affinity-pass master branch (line 204) has no capacity
  check, so CPU 0 is elected master and ncpus becomes 1 > 0. -/

def cfgT : VMConfig := .mk 3 2 [.mk 3 2 []]

def schedT : Sched := .mk [0, 1] [0, 1] [.mk [0, 1] [0, 1] []]

def runT : PSt × Nat × List (Nat × Bool) :=
  vmm_create_vms 3 0 none cfgT [0, 1] schedT pstInit

def cfgS : VMConfig := .mk 7 3 [.mk 7 2 [.mk 7 1 [], .mk 7 3 []]]

def schedS : Sched :=
  .mk [0, 1, 2] [0, 1, 2]
    [.mk [1, 2, 0] [0, 1, 2] [.mk [1, 2] [1, 2] [], .mk [1, 2] [1, 2] []]]

def runS : PSt × Nat × List (Nat × Bool) :=
  vmm_create_vms 4 0 none cfgS [0, 1, 2] schedS pstInit

def cfgZ : List VMCfg := [⟨1, 0⟩]

/-- The state reached from initG cfgZ 1 by CPU 0's first affinity-pass
    step: CPU 0 is elected master of entry 0 and ncpus becomes 1, above
    the configured required count 0. -/
def stZ : GSt :=
  vmm_init_pass1_step cfgZ 0 (initG cfgZ 1)

/-- Inductive invariant of the top-level assignment protocol: table length
    fixed; an unassigned CPU has no master flag; an assigned CPU's vm_id
    is in range; an entry without elected master has count 0 (the count is
    only ever incremented together with or after the election); each
    entry's ncpus equals the number of CPUs that claimed it; each entry
    has exactly one master CPU iff its master flag is set; and, when every
    configured required count is at least 1, no count exceeds its required
    count. -/
def StInv (cfg : List VMCfg) (s : GSt) : Prop :=
  s.table.length = cfg.length ∧
  (∀ c, (s.cst.getD c default).assigned = false → (s.cst.getD c default).master = false) ∧
  (∀ c, (s.cst.getD c default).assigned = true → (s.cst.getD c default).vm_id < cfg.length) ∧
  (∀ i, (s.table.getD i default).master = false → (s.table.getD i default).ncpus = 0) ∧
  (∀ i, claimedFor s i = (s.table.getD i default).ncpus) ∧
  (∀ i, mastersFor s i = (if (s.table.getD i default).master = true then 1 else 0)) ∧
  (∀ i, (∀ vc ∈ cfg, 1 ≤ vc.cpu_num) →
      (s.table.getD i default).ncpus ≤ (cfg.getD i default).cpu_num)

/-! ## Helper lemmas and claim theorems -/

theorem spin_some_le : ∀ (pub P fuel start t : Nat),
    spinUntilNonzero pub P fuel start = some t → start ≤ t ∧ pub ≤ t := by
  intro pub P fuel
  induction fuel with
  | zero => intro start t h; simp [spinUntilNonzero] at h
  | succ fuel ih =>
    intro start t h
    rw [spinUntilNonzero] at h
    split at h
    · rename_i hf
      cases h
      refine ⟨le_refl _, ?_⟩
      unfold fieldAt at hf
      split at hf
      · exact absurd rfl hf
      · omega
    · have := ih (start + 1) t h
      omega

theorem fieldAt_of_pub_le {pub P t : Nat} (h : pub ≤ t) : fieldAt pub P t = P := by
  unfold fieldAt
  split
  · omega
  · rfl

theorem spin_live : ∀ (pub P fuel start : Nat), P ≠ 0 → 0 < fuel → pub < start + fuel →
    (spinUntilNonzero pub P fuel start).isSome = true := by
  intro pub P fuel
  induction fuel with
  | zero => intro start _ h; omega
  | succ fuel ih =>
    intro start hP _ hlt
    rw [spinUntilNonzero]
    split
    · rfl
    · rename_i hf
      push_neg at hf
      have hsp : start < pub := by
        by_contra hge
        push_neg at hge
        rw [fieldAt_of_pub_le hge] at hf
        exact hP hf
      exact ih (start + 1) hP (by omega) (by omega)

theorem vmidTrace_getD : ∀ (k s : Nat), s + k < 2 ^ 64 → ∀ i, i < k →
    (vmidTrace s k).getD i 0 = s + i + 1 := by
  intro k
  induction k with
  | zero => intro s _ i hi; omega
  | succ k ih =>
    intro s hs i hi
    have hmod : (s + 1) % 2 ^ 64 = s + 1 := Nat.mod_eq_of_lt (by omega)
    cases i with
    | zero =>
      simp [vmidTrace, vmm_alloc_vmid]
      omega
    | succ i =>
      have hstep : (vmidTrace s (k + 1)).getD (i + 1) 0
          = (vmidTrace ((s + 1) % 2 ^ 64) k).getD i 0 := by
        simp [vmidTrace, vmm_alloc_vmid]
      rw [hstep, hmod, ih (s + 1) (by omega) i (by omega)]
      omega

theorem vmidTrace_ne_zero : ∀ (k s : Nat), s + k < 2 ^ 64 →
    ∀ v ∈ vmidTrace s k, v ≠ 0 := by
  intro k
  induction k with
  | zero => intro s _ v hv; simp [vmidTrace] at hv
  | succ k ih =>
    intro s hs v hv
    have hmod : (s + 1) % 2 ^ 64 = s + 1 := Nat.mod_eq_of_lt (by omega)
    simp only [vmidTrace, vmm_alloc_vmid, List.mem_cons] at hv
    rcases hv with hv | hv
    · omega
    · exact ih ((s + 1) % 2 ^ 64) (by omega) v (by simpa [hmod] using hv)

theorem count_filter_ne (x vm : Nat) (hx : x ≠ vm) : ∀ (l : List Nat),
    (l.filter (fun y => y ≠ vm)).count x = l.count x := by
  intro l
  induction l with
  | nil => rfl
  | cons a l ih =>
    rw [List.filter_cons]
    by_cases ha : a = vm
    · rw [if_neg (by simp [ha]), ih, List.count_cons, ha,
        if_neg (by simp [beq_iff_eq]; omega)]
      omega
    · rw [if_pos (by simp [ha]), List.count_cons, List.count_cons, ih]

theorem vmm_alloc_vmid_spec :
    ∀ n : Nat, n < 2 ^ 64 →
      (∀ i, i < n → (vmidTrace 0 n).getD i 0 = i + 1) ∧
      (∀ i j, i < j → j < n → (vmidTrace 0 n).getD i 0 < (vmidTrace 0 n).getD j 0) ∧
      (∀ v ∈ vmidTrace 0 n, v ≠ 0) ∧
      (0 < n → (vmidTrace 0 n).getD 0 0 = 1) := by
  intro n hn
  have hg := vmidTrace_getD n 0 (by omega)
  refine ⟨?_, ?_, ?_, ?_⟩
  · intro i hi
    have := hg i hi
    omega
  · intro i j hij hj
    have h1 := hg i (by omega)
    have h2 := hg j hj
    omega
  · exact vmidTrace_ne_zero n 0 (by omega)
  · intro h
    have := hg 0 h
    omega

theorem create_destroy_restores_pool :
    ∀ st : DynSt, 1 ≤ st.free → (∀ x ∈ st.children, x < st.nextVm) →
      (vmm_destroy_dynamic (vmm_init_dynamic st).1 (vmm_init_dynamic st).2).free
        = st.free := by
  intro st h1 hfresh
  have hnot : st.nextVm ∉ st.children := by
    intro hmem
    have := hfresh _ hmem
    omega
  show (st.free - 1) + ((st.nextVm :: st.children).count st.nextVm) = st.free
  rw [List.count_cons_self, List.count_eq_zero_of_not_mem hnot]
  omega

theorem destroy_dynamic_spec :
    ∀ (st : DynSt) (vm : Nat),
      vm ∈ (vmm_destroy_dynamic st vm).torn ∧
      vm ∈ (vmm_destroy_dynamic st vm).freed ∧
      (vmm_destroy_dynamic st vm).children.count vm = 0 ∧
      (vmm_destroy_dynamic st vm).free = st.free + st.children.count vm ∧
      (∀ x, x ≠ vm → (vmm_destroy_dynamic st vm).children.count x = st.children.count x) := by
  intro st vm
  refine ⟨?_, ?_, ?_, rfl, ?_⟩
  · simp [vmm_destroy_dynamic]
  · simp [vmm_destroy_dynamic]
  · apply List.count_eq_zero_of_not_mem
    intro hmem
    have := List.of_mem_filter hmem
    simp at this
  · intro x hx
    exact count_filter_ne x vm hx st.children

theorem publish_handoff_spec :
    ∀ pub P : Nat, P ≠ 0 →
      (∀ t, fieldAt pub P t = 0 ↔ t < pub) ∧
      (∀ fuel start t, spinUntilNonzero pub P fuel start = some t →
          start ≤ t ∧ pub ≤ t ∧ fieldAt pub P t = P ∧ fieldAt pub P t ≠ 0) ∧
      (∀ fuel start v, followerInstall pub P fuel start = some v → v = P ∧ v ≠ 0) ∧
      (∀ fuel start, 0 < fuel → pub < start + fuel →
          (spinUntilNonzero pub P fuel start).isSome = true) := by
  intro pub P hP
  refine ⟨?_, ?_, ?_, ?_⟩
  · intro t
    constructor
    · intro h
      by_contra hge
      push_neg at hge
      rw [fieldAt_of_pub_le hge] at h
      exact hP h
    · intro h
      unfold fieldAt
      rw [if_pos h]
  · intro fuel start t hsp
    obtain ⟨h1, h2⟩ := spin_some_le pub P fuel start t hsp
    refine ⟨h1, h2, fieldAt_of_pub_le h2, ?_⟩
    rw [fieldAt_of_pub_le h2]
    exact hP
  · intro fuel start v hv
    unfold followerInstall at hv
    cases hsp : spinUntilNonzero pub P fuel start with
    | none => rw [hsp] at hv; simp at hv
    | some t =>
      rw [hsp] at hv
      simp only [Option.map_some', Option.some.injEq] at hv
      obtain ⟨h1, h2⟩ := spin_some_le pub P fuel start t hsp
      rw [fieldAt_of_pub_le (show pub ≤ t + 1 by omega)] at hv
      constructor
      · exact hv.symm
      · rw [← hv]
        exact hP
  · intro fuel start hf hlt
    exact spin_live pub P fuel start hP hf hlt

theorem getD_map_resetIdx : ∀ (l : List CpuSt) (c : Nat),
    ((l.map (fun cs => (⟨cs.assigned, cs.master, cs.vm_id, 0⟩ : CpuSt))).getD c default).assigned
      = (l.getD c default).assigned := by
  intro l
  induction l with
  | nil => intro c; rfl
  | cons a l ih =>
    intro c
    cases c with
    | zero => rfl
    | succ c => exact ih c

theorem unassigned_cpu_idles :
    (∀ cs, cpuBootOutcome [] cs = BootOutcome.idleNoVMs) ∧
    (∀ (s s' : GSt), VmmInitStep [] s s' →
        s'.table = s.table ∧
        ∀ c, (s'.cst.getD c default).assigned = (s.cst.getD c default).assigned) ∧
    (∀ (cfg : List VMCfg) (cs : CpuSt), cfg ≠ [] → cs.assigned = false →
        cpuBootOutcome cfg cs = BootOutcome.idleUnassigned ∧
        runsPartitionBootstrap cs = false ∧ runsTreeBuild cs = false) := by
  refine ⟨?_, ?_, ?_⟩
  · intro cs
    rfl
  · intro s s' h
    cases h with
    | p1 c s hph hc hna hi => exact absurd hi (by simp)
    | p2 c s hph hc hna hi => exact absurd hi (by simp)
    | bar1 s hph hall => exact ⟨rfl, fun c => getD_map_resetIdx s.cst c⟩
    | bar2 s hph hall => exact ⟨rfl, fun c => rfl⟩
  · intro cfg cs hne hna
    have hlen : cfg.length ≠ 0 := fun h => hne (List.length_eq_zero.mp h)
    refine ⟨?_, by simp [runsPartitionBootstrap, hna], by simp [runsTreeBuild, hna]⟩
    unfold cpuBootOutcome
    rw [if_neg hlen, hna]
    simp

theorem vmm_alloc_vmid_spec_witness :
    (vmidTrace 0 3).getD 0 0 = 1 ∧ (vmidTrace 0 3).getD 0 0 < (vmidTrace 0 3).getD 2 0 := by
  have h := vmm_alloc_vmid_spec 3 (by norm_num)
  exact ⟨h.2.2.2 (by norm_num), h.2.1 0 2 (by norm_num) (by norm_num)⟩

theorem create_destroy_restores_pool_witness :
    (vmm_destroy_dynamic (vmm_init_dynamic ⟨2, [0], 1, 0, [], []⟩).1
        (vmm_init_dynamic ⟨2, [0], 1, 0, [], []⟩).2).free = 2 :=
  create_destroy_restores_pool ⟨2, [0], 1, 0, [], []⟩ (by norm_num)
    (by decide)

theorem destroy_dynamic_spec_witness :
    (vmm_destroy_dynamic ⟨0, [5, 3, 5], 7, 0, [], []⟩ 5).children.count 3
      = ([5, 3, 5] : List Nat).count 3 :=
  (destroy_dynamic_spec ⟨0, [5, 3, 5], 7, 0, [], []⟩ 5).2.2.2.2 3 (by norm_num)

theorem publish_handoff_spec_witness :
    (fieldAt 2 5 1 = 0 ↔ 1 < 2) ∧ (fieldAt 2 5 2 = 5 ∧ fieldAt 2 5 2 ≠ 0) ∧
    ((5 : Nat) = 5 ∧ (5 : Nat) ≠ 0) ∧ (spinUntilNonzero 2 5 4 0).isSome = true := by
  have h := publish_handoff_spec 2 5 (by norm_num)
  refine ⟨h.1 1, ?_, ?_, h.2.2.2 4 0 (by norm_num) (by norm_num)⟩
  · have h2 := h.2.1 4 0 2 (by decide)
    exact ⟨h2.2.2.1, h2.2.2.2⟩
  · exact h.2.2.1 4 0 5 (by decide)

theorem unassigned_cpu_idles_witness :
    cpuBootOutcome [] default = BootOutcome.idleNoVMs ∧
    ((⟨(initG [] 1).table,
        (initG [] 1).cst.map (fun cs => (⟨cs.assigned, cs.master, cs.vm_id, 0⟩ : CpuSt)),
        1⟩ : GSt).table = (initG [] 1).table) ∧
    (cpuBootOutcome cfgZ default = BootOutcome.idleUnassigned ∧
      runsPartitionBootstrap default = false ∧ runsTreeBuild default = false) := by
  refine ⟨unassigned_cpu_idles.1 default, ?_,
    unassigned_cpu_idles.2.2 cfgZ default (by decide) rfl⟩
  have hstep : VmmInitStep []
      (initG [] 1)
      ⟨(initG [] 1).table,
        (initG [] 1).cst.map (fun cs => (⟨cs.assigned, cs.master, cs.vm_id, 0⟩ : CpuSt)),
        1⟩ :=
    VmmInitStep.bar1 (initG [] 1) rfl (by
      intro c hc
      have hc1 : c = 0 := by
        simp only [initG, List.length_replicate] at hc
        omega
      subst hc1
      decide)
  exact (unassigned_cpu_idles.2.1 _ _ hstep).1

theorem getD_set_self {α} [Inhabited α] : ∀ (l : List α) (j : Nat) (x : α), j < l.length →
    (l.set j x).getD j default = x := by
  intro l
  induction l with
  | nil => intro j x h; simp at h
  | cons a l ih =>
    intro j x h
    cases j with
    | zero => rfl
    | succ j => exact ih j x (by simpa using h)

theorem getD_set_ne {α} [Inhabited α] : ∀ (l : List α) (i j : Nat) (x : α), i ≠ j →
    (l.set j x).getD i default = l.getD i default := by
  intro l
  induction l with
  | nil => intro i j x _; rfl
  | cons a l ih =>
    intro i j x h
    cases j with
    | zero =>
      cases i with
      | zero => exact absurd rfl h
      | succ i => rfl
    | succ j =>
      cases i with
      | zero => rfl
      | succ i => exact ih i j x (fun hh => h (by rw [hh]))

theorem countP_set {α} [Inhabited α] (p : α → Bool) :
    ∀ (l : List α) (j : Nat) (x : α), j < l.length →
      (l.set j x).countP p + (if p (l.getD j default) then 1 else 0)
        = l.countP p + (if p x then 1 else 0) := by
  intro l
  induction l with
  | nil => intro j x h; simp at h
  | cons a l ih =>
    intro j x h
    cases j with
    | zero =>
      simp only [List.set_cons_zero, List.countP_cons, List.getD_cons_zero]
      omega
    | succ j =>
      have := ih j x (by simpa using h)
      simp only [List.set_cons_succ, List.countP_cons, List.getD_cons_succ]
      omega

theorem getD_map_of_default {α β} [Inhabited α] [Inhabited β] (f : α → β)
    (hd : f default = default) :
    ∀ (l : List α) (c : Nat), (l.map f).getD c default = f (l.getD c default) := by
  intro l
  induction l with
  | nil => intro c; simpa using hd.symm
  | cons a l ih =>
    intro c
    cases c with
    | zero => rfl
    | succ c => exact ih c

theorem countP_replicate_false {α} (p : α → Bool) (d : α) (hp : p d = false) :
    ∀ n, (List.replicate n d).countP p = 0 := by
  intro n
  induction n with
  | zero => rfl
  | succ n ih => simp [List.replicate_succ, List.countP_cons, ih, hp]

theorem getD_replicate_default {α} [Inhabited α] :
    ∀ (n c : Nat), (List.replicate n (default : α)).getD c default = default := by
  intro n
  induction n with
  | zero => intro c; rfl
  | succ n ih =>
    intro c
    cases c with
    | zero => rfl
    | succ c => exact ih c

theorem stInv_init (cfg : List VMCfg) (n : Nat) : StInv cfg (initG cfg n) := by
  refine ⟨by simp [initG], ?_, ?_, ?_, ?_, ?_, ?_⟩
  · intro c _
    show ((List.replicate n (default : CpuSt)).getD c default).master = false
    rw [getD_replicate_default]
    rfl
  · intro c hc
    rw [show (((initG cfg n).cst.getD c default)) = default from getD_replicate_default n c] at hc
    exact absurd hc (by decide)
  · intro i _
    show ((List.replicate cfg.length (default : AssignEntry)).getD i default).ncpus = 0
    rw [getD_replicate_default]
    rfl
  · intro i
    show (List.replicate n (default : CpuSt)).countP _
      = ((List.replicate cfg.length (default : AssignEntry)).getD i default).ncpus
    rw [getD_replicate_default, countP_replicate_false _ _ rfl]
    rfl
  · intro i
    show (List.replicate n (default : CpuSt)).countP _ = _
    rw [countP_replicate_false _ _ rfl,
      show ((initG cfg n).table.getD i default) = default from
        getD_replicate_default cfg.length i]
    rfl
  · intro i _
    rw [show ((initG cfg n).table.getD i default) = default from
      getD_replicate_default cfg.length i]
    exact Nat.zero_le _

theorem stInv_skip (cfg : List VMCfg) (s : GSt) (c j : Nat)
    (hInv : StInv cfg s) (hc : c < s.cst.length) :
    StInv cfg { s with
      cst := s.cst.set c
        ⟨(s.cst.getD c default).assigned, (s.cst.getD c default).master,
          (s.cst.getD c default).vm_id, j⟩ } := by
  obtain ⟨h1, h2, h3, h4, h5, h6, h7⟩ := hInv
  refine ⟨h1, ?_, ?_, h4, ?_, ?_, h7⟩
  · intro c'
    by_cases hcc : c' = c
    · subst hcc
      rw [getD_set_self _ _ _ hc]
      exact h2 c'
    · rw [getD_set_ne _ _ _ _ hcc]
      exact h2 c'
  · intro c'
    by_cases hcc : c' = c
    · subst hcc
      rw [getD_set_self _ _ _ hc]
      exact h3 c'
    · rw [getD_set_ne _ _ _ _ hcc]
      exact h3 c'
  · intro i
    have := countP_set (fun cs => cs.assigned && (cs.vm_id == i)) s.cst c
      ⟨(s.cst.getD c default).assigned, (s.cst.getD c default).master,
        (s.cst.getD c default).vm_id, j⟩ hc
    have h5i := h5 i
    unfold claimedFor at h5i ⊢
    dsimp only at this ⊢
    omega
  · intro i
    have := countP_set (fun cs => cs.assigned && cs.master && (cs.vm_id == i)) s.cst c
      ⟨(s.cst.getD c default).assigned, (s.cst.getD c default).master,
        (s.cst.getD c default).vm_id, j⟩ hc
    have h6i := h6 i
    unfold mastersFor at h6i ⊢
    dsimp only at this ⊢
    omega

theorem stInv_claim (cfg : List VMCfg) (s : GSt) (c x : Nat) (m1 m2 : Bool)
    (hInv : StInv cfg s) (hc : c < s.cst.length)
    (hna : (s.cst.getD c default).assigned = false)
    (hi : (s.cst.getD c default).idx < cfg.length)
    (hm1 : m1 = true)
    (hm2 : m2 = !(s.table.getD (s.cst.getD c default).idx default).master)
    (hbound : (∀ vc ∈ cfg, 1 ≤ vc.cpu_num) →
        (s.table.getD (s.cst.getD c default).idx default).ncpus + 1
          ≤ (cfg.getD (s.cst.getD c default).idx default).cpu_num) :
    StInv cfg { s with
      table := s.table.set (s.cst.getD c default).idx
        ⟨m1, (s.table.getD (s.cst.getD c default).idx default).ncpus + 1, x⟩,
      cst := s.cst.set c
        ⟨true, m2, (s.cst.getD c default).idx, (s.cst.getD c default).idx + 1⟩ } := by
  obtain ⟨h1, h2, h3, h4, h5, h6, h7⟩ := hInv
  have hilen : (s.cst.getD c default).idx < s.table.length := by omega
  subst hm1
  refine ⟨?_, ?_, ?_, ?_, ?_, ?_, ?_⟩
  · dsimp only
    rw [List.length_set]
    exact h1
  · intro c'
    dsimp only
    by_cases hcc : c' = c
    · subst hcc
      rw [getD_set_self _ _ _ hc]
      intro hcon
      dsimp only at hcon
      exact absurd hcon (by decide)
    · rw [getD_set_ne _ _ _ _ hcc]
      exact h2 c'
  · intro c'
    dsimp only
    by_cases hcc : c' = c
    · subst hcc
      rw [getD_set_self _ _ _ hc]
      intro _
      exact hi
    · rw [getD_set_ne _ _ _ _ hcc]
      exact h3 c'
  · intro i
    dsimp only
    by_cases hii : i = (s.cst.getD c default).idx
    · subst hii
      rw [getD_set_self _ _ _ hilen]
      intro hcon
      dsimp only at hcon
      exact absurd hcon (by decide)
    · rw [getD_set_ne _ _ _ _ hii]
      exact h4 i
  · intro i
    have hcount := countP_set (fun cs => cs.assigned && (cs.vm_id == i)) s.cst c
      ⟨true, m2, (s.cst.getD c default).idx, (s.cst.getD c default).idx + 1⟩ hc
    have h5i := h5 i
    unfold claimedFor at h5i ⊢
    dsimp only at hcount ⊢
    have hpcs : ((s.cst.getD c default).assigned && ((s.cst.getD c default).vm_id == i))
        = false := by
      rw [hna]
      rfl
    rw [hpcs, if_neg (by decide : ¬(false = true))] at hcount
    by_cases hii : i = (s.cst.getD c default).idx
    · subst hii
      rw [getD_set_self _ _ _ hilen]
      rw [if_pos (show (true
          && (((s.cst.getD c default).idx == (s.cst.getD c default).idx) : Bool)) = true by
        simp only [Bool.true_and, beq_self_eq_true])] at hcount
      dsimp only
      omega
    · rw [getD_set_ne _ _ _ _ hii]
      rw [if_neg (show ¬((true && (((s.cst.getD c default).idx == i) : Bool)) = true) by
        intro hh
        simp only [Bool.true_and] at hh
        exact hii (eq_of_beq hh).symm)] at hcount
      omega
  · intro i
    have hcount := countP_set (fun cs => cs.assigned && cs.master && (cs.vm_id == i)) s.cst c
      ⟨true, m2, (s.cst.getD c default).idx, (s.cst.getD c default).idx + 1⟩ hc
    have h6i := h6 i
    unfold mastersFor at h6i ⊢
    dsimp only at hcount ⊢
    have hqcs : ((s.cst.getD c default).assigned && (s.cst.getD c default).master
        && ((s.cst.getD c default).vm_id == i)) = false := by
      rw [hna]
      rfl
    rw [hqcs, if_neg (by decide : ¬(false = true))] at hcount
    by_cases hii : i = (s.cst.getD c default).idx
    · subst hii
      rw [getD_set_self _ _ _ hilen]
      dsimp only
      rw [if_pos rfl]
      cases hmold : (s.table.getD (s.cst.getD c default).idx default).master with
      | false =>
        rw [hmold] at hm2
        have hm2t : m2 = true := by
          rw [hm2]
          rfl
        subst hm2t
        rw [if_pos (show (true && true
            && (((s.cst.getD c default).idx == (s.cst.getD c default).idx) : Bool)) = true by
          simp only [Bool.true_and, beq_self_eq_true])] at hcount
        rw [hmold, if_neg (by decide : ¬(false = true))] at h6i
        omega
      | true =>
        rw [hmold] at hm2
        have hm2f : m2 = false := by
          rw [hm2]
          rfl
        subst hm2f
        rw [if_neg (show ¬((true && false
            && (((s.cst.getD c default).idx == (s.cst.getD c default).idx) : Bool)) = true) by
          simp only [Bool.true_and, Bool.false_and]
          decide)] at hcount
        rw [hmold, if_pos rfl] at h6i
        omega
    · rw [getD_set_ne _ _ _ _ hii]
      rw [if_neg (show ¬((true && m2
          && (((s.cst.getD c default).idx == i) : Bool)) = true) by
        intro hh
        simp only [Bool.and_eq_true] at hh
        exact hii (eq_of_beq hh.2).symm)] at hcount
      omega
  · intro i hcfg
    dsimp only
    by_cases hii : i = (s.cst.getD c default).idx
    · subst hii
      rw [getD_set_self _ _ _ hilen]
      exact hbound hcfg
    · rw [getD_set_ne _ _ _ _ hii]
      exact h7 i hcfg

theorem stInv_pass1 (cfg : List VMCfg) (s : GSt) (c : Nat)
    (hInv : StInv cfg s) (hc : c < s.cst.length)
    (hna : (s.cst.getD c default).assigned = false)
    (hi : (s.cst.getD c default).idx < cfg.length) :
    StInv cfg (vmm_init_pass1_step cfg c s) := by
  simp only [vmm_init_pass1_step]
  split
  · split
    · rename_i hmaster
      refine stInv_claim cfg s c _ true true hInv hc hna hi rfl (by rw [hmaster]; rfl) ?_
      intro hcfg
      have h0 := hInv.2.2.2.1 (s.cst.getD c default).idx hmaster
      have hmem : cfg.getD (s.cst.getD c default).idx default ∈ cfg := by
        rw [List.getD_eq_getElem cfg default hi]
        exact List.getElem_mem _
      have := hcfg _ hmem
      omega
    · split
      · rename_i hmaster hcap
        have hm1 : (s.table.getD (s.cst.getD c default).idx default).master = true := by
          revert hmaster
          cases (s.table.getD (s.cst.getD c default).idx default).master <;> simp
        have hm2 : (s.cst.getD c default).master
            = !(s.table.getD (s.cst.getD c default).idx default).master := by
          rw [hInv.2.1 c hna, hm1]
          rfl
        refine stInv_claim cfg s c _ _ _ hInv hc hna hi hm1 hm2 ?_
        intro _
        omega
      · exact stInv_skip cfg s c _ hInv hc
  · exact stInv_skip cfg s c _ hInv hc

theorem stInv_pass2 (cfg : List VMCfg) (s : GSt) (c : Nat)
    (hInv : StInv cfg s) (hc : c < s.cst.length)
    (hna : (s.cst.getD c default).assigned = false)
    (hi : (s.cst.getD c default).idx < cfg.length) :
    StInv cfg (vmm_init_pass2_step cfg c s) := by
  simp only [vmm_init_pass2_step]
  split
  · split
    · rename_i hcap hmaster
      refine stInv_claim cfg s c _ true true hInv hc hna hi rfl (by rw [hmaster]; rfl) ?_
      intro _
      have h0 := hInv.2.2.2.1 (s.cst.getD c default).idx hmaster
      omega
    · rename_i hcap hmaster
      have hm1 : (s.table.getD (s.cst.getD c default).idx default).master = true := by
        revert hmaster
        cases (s.table.getD (s.cst.getD c default).idx default).master <;> simp
      have hm2 : (s.cst.getD c default).master
          = !(s.table.getD (s.cst.getD c default).idx default).master := by
        rw [hInv.2.1 c hna, hm1]
        rfl
      refine stInv_claim cfg s c _ _ _ hInv hc hna hi hm1 hm2 ?_
      intro _
      omega
  · exact stInv_skip cfg s c _ hInv hc

theorem stInv_step (cfg : List VMCfg) (s s' : GSt)
    (hInv : StInv cfg s) (h : VmmInitStep cfg s s') : StInv cfg s' := by
  cases h with
  | p1 c s hph hc hna hi => exact stInv_pass1 cfg s c hInv hc hna hi
  | p2 c s hph hc hna hi => exact stInv_pass2 cfg s c hInv hc hna hi
  | bar1 s hph hall =>
    obtain ⟨h1, h2, h3, h4, h5, h6, h7⟩ := hInv
    refine ⟨h1, ?_, ?_, h4, ?_, ?_, h7⟩
    · intro c
      dsimp only
      rw [getD_map_of_default
        (fun (cs : CpuSt) => (⟨cs.assigned, cs.master, cs.vm_id, 0⟩ : CpuSt)) rfl]
      exact h2 c
    · intro c
      dsimp only
      rw [getD_map_of_default
        (fun (cs : CpuSt) => (⟨cs.assigned, cs.master, cs.vm_id, 0⟩ : CpuSt)) rfl]
      exact h3 c
    · intro i
      unfold claimedFor
      dsimp only
      rw [List.countP_map]
      exact h5 i
    · intro i
      unfold mastersFor
      dsimp only
      rw [List.countP_map]
      exact h6 i
  | bar2 s hph hall => exact hInv

theorem stInv_reach (cfg : List VMCfg) (n : Nat) (s : GSt)
    (h : VmmInitReach cfg n s) : StInv cfg s := by
  unfold VmmInitReach at h
  induction h with
  | refl => exact stInv_init cfg n
  | tail hab hbc ih => exact stInv_step cfg _ _ ih hbc

/-- C1 (amended): in the top-level assignment protocol, provided every
    VM configuration requires at least one CPU, the recorded count
    vm_assign[i].ncpus never exceeds vmlist[i]->platform.cpu_num, in every
    reachable state of every interleaving — including master election.
    (Without the provision the property fails: the affinity-pass master
    branch at vmm.c line 204 has no capacity check, see the
    counterexample.) -/
theorem assign_ncpus_le_required :
    ∀ (cfg : List VMCfg) (n : Nat) (s : GSt), (∀ vc ∈ cfg, 1 ≤ vc.cpu_num) →
      VmmInitReach cfg n s →
      ∀ i, (s.table.getD i default).ncpus ≤ (cfg.getD i default).cpu_num := by
  intro cfg n s hcfg hr i
  exact (stInv_reach cfg n s hr).2.2.2.2.2.2 i hcfg

/-- C1 counterexample: one VM with required count 0 whose affinity contains
    CPU 0; after CPU 0's first affinity-pass step it is elected master and
    ncpus = 1 exceeds the required count 0. -/
theorem assign_ncpus_counterexample :
    VmmInitReach cfgZ 1 stZ ∧
    (stZ.table.getD 0 default).ncpus = 1 ∧
    (cfgZ.getD 0 default).cpu_num = 0 ∧
    ¬((stZ.table.getD 0 default).ncpus ≤ (cfgZ.getD 0 default).cpu_num) := by
  refine ⟨?_, by decide, by decide, by decide⟩
  exact Relation.ReflTransGen.single
    (VmmInitStep.p1 0 (initG cfgZ 1) rfl (by decide) (by decide) (by decide))

theorem assign_ncpus_le_required_witness :
    ((initG [⟨1, 1⟩] 1).table.getD 0 default).ncpus
      ≤ (([⟨1, 1⟩] : List VMCfg).getD 0 default).cpu_num :=
  assign_ncpus_le_required [⟨1, 1⟩] 1 (initG [⟨1, 1⟩] 1) (by decide)
    Relation.ReflTransGen.refl 0

theorem claim1_len : ∀ (aff num : Nat) (o : List Nat) (n : Nat),
    (claim1 aff num o n).1 = n + (claim1 aff num o n).2.length := by
  intro aff num o
  induction o with
  | nil => intro n; simp [claim1]
  | cons c rest ih =>
    intro n
    simp only [claim1]
    split
    · dsimp only
      rw [ih (n + 1)]
      simp only [List.length_cons]
      omega
    · exact ih n

theorem claim1_masters_pos : ∀ (aff num : Nat) (o : List Nat) (n : Nat), 0 < n →
    mastersCount (claim1 aff num o n).2 = 0 := by
  intro aff num o
  induction o with
  | nil => intro n _; rfl
  | cons c rest ih =>
    intro n hn
    simp only [claim1]
    split
    · dsimp only
      unfold mastersCount
      rw [List.countP_cons]
      have hb : ((n == 0) : Bool) = false := by
        simp only [beq_eq_false_iff_ne]
        omega
      have htail := ih (n + 1) (by omega)
      unfold mastersCount at htail
      rw [htail]
      dsimp only
      rw [hb]
      rfl
    · exact ih n hn

theorem claim1_masters_start : ∀ (aff num : Nat) (o : List Nat),
    mastersCount (claim1 aff num o 0).2
      = if (claim1 aff num o 0).2.isEmpty then 0 else 1 := by
  intro aff num o
  induction o with
  | nil => rfl
  | cons c rest ih =>
    simp only [claim1]
    split
    · dsimp only
      unfold mastersCount
      rw [List.countP_cons]
      have htail := claim1_masters_pos aff num rest (0 + 1) (by omega)
      unfold mastersCount at htail
      rw [htail]
      rfl
    · exact ih

theorem claim2_len : ∀ (num : Nat) (o : List Nat) (n : Nat),
    (claim2 num o n).1 = n + (claim2 num o n).2.length := by
  intro num o
  induction o with
  | nil => intro n; simp [claim2]
  | cons c rest ih =>
    intro n
    simp only [claim2]
    split
    · dsimp only
      rw [ih (n + 1)]
      simp only [List.length_cons]
      omega
    · exact ih n

theorem claim2_masters_pos : ∀ (num : Nat) (o : List Nat) (n : Nat), 0 < n →
    mastersCount (claim2 num o n).2 = 0 := by
  intro num o
  induction o with
  | nil => intro n _; rfl
  | cons c rest ih =>
    intro n hn
    simp only [claim2]
    split
    · dsimp only
      unfold mastersCount
      rw [List.countP_cons]
      have hb : ((n == 0) : Bool) = false := by
        simp only [beq_eq_false_iff_ne]
        omega
      have htail := ih (n + 1) (by omega)
      unfold mastersCount at htail
      rw [htail]
      dsimp only
      rw [hb]
      rfl
    · exact ih n hn

theorem claim2_masters_start : ∀ (num : Nat) (o : List Nat),
    mastersCount (claim2 num o 0).2
      = if (claim2 num o 0).2.isEmpty then 0 else 1 := by
  intro num o
  induction o with
  | nil => rfl
  | cons c rest ih =>
    simp only [claim2]
    split
    · dsimp only
      unfold mastersCount
      rw [List.countP_cons]
      have htail := claim2_masters_pos num rest (0 + 1) (by omega)
      unfold mastersCount at htail
      rw [htail]
      rfl
    · exact ih

theorem mastersCount_append (a b : List (Nat × Bool)) :
    mastersCount (a ++ b) = mastersCount a + mastersCount b := by
  unfold mastersCount
  exact List.countP_append _ _ _

theorem claimLevel_masters_le_one :
    ∀ (aff num : Nat) (o1 o2 : List Nat) (n : Nat),
      mastersCount (claimLevel aff num o1 o2 n).2 ≤ 1 := by
  intro aff num o1 o2 n
  unfold claimLevel
  dsimp only
  rw [mastersCount_append]
  rcases Nat.eq_zero_or_pos n with hn | hn
  · subst hn
    rw [claim1_masters_start]
    by_cases hp1 : (claim1 aff num o1 0).2.isEmpty
    · rw [if_pos hp1]
      have hlen : (claim1 aff num o1 0).2.length = 0 := by
        rw [List.isEmpty_iff.mp hp1]
        rfl
      have hfst : (claim1 aff num o1 0).1 = 0 := by
        rw [claim1_len, hlen]
      rw [hfst, claim2_masters_start]
      split
      · omega
      · omega
    · rw [if_neg hp1]
      have hlen : 0 < (claim1 aff num o1 0).2.length := by
        rcases hl : (claim1 aff num o1 0).2 with _ | ⟨a, l⟩
        · rw [hl] at hp1
          exact absurd rfl hp1
        · simp
      have hfst : 0 < (claim1 aff num o1 0).1 := by
        rw [claim1_len]
        omega
      rw [claim2_masters_pos _ _ _ hfst]
  · rw [claim1_masters_pos _ _ _ _ hn]
    have hfst : 0 < (claim1 aff num o1 n).1 := by
      rw [claim1_len]
      omega
    rw [claim2_masters_pos _ _ _ hfst]
    omega

theorem claimLevel_masters_eq_one :
    ∀ (aff num : Nat) (o1 o2 : List Nat),
      (claimLevel aff num o1 o2 0).2 ≠ [] →
      mastersCount (claimLevel aff num o1 o2 0).2 = 1 := by
  intro aff num o1 o2 hne
  unfold claimLevel at hne ⊢
  dsimp only at hne ⊢
  rw [mastersCount_append]
  by_cases hp1 : (claim1 aff num o1 0).2.isEmpty
  · have hnil : (claim1 aff num o1 0).2 = [] := List.isEmpty_iff.mp hp1
    have hfst : (claim1 aff num o1 0).1 = 0 := by
      rw [claim1_len, hnil]
      rfl
    have hne2 : (claim2 num
        (o2.filter (fun c => !((claim1 aff num o1 0).2.any (fun q => q.1 == c))))
        (claim1 aff num o1 0).1).2 ≠ [] :=
      fun hcon => hne (List.append_eq_nil.mpr ⟨hnil, hcon⟩)
    rw [hfst] at hne2
    rw [claim1_masters_start, if_pos hp1, hfst, claim2_masters_start,
      if_neg (fun hcon => hne2 (List.isEmpty_iff.mp hcon))]
  · have hlen : 0 < (claim1 aff num o1 0).2.length := by
      rcases hl : (claim1 aff num o1 0).2 with _ | ⟨a, l⟩
      · rw [hl] at hp1
        exact absurd rfl hp1
      · simp
    have hfst : 0 < (claim1 aff num o1 0).1 := by
      rw [claim1_len]
      omega
    rw [claim1_masters_start, if_neg hp1, claim2_masters_pos _ _ _ hfst]

theorem tableMaster_set_mono (t : List AssignEntry) (j i : Nat) (ne : AssignEntry)
    (hne : ne.master = true ∨ ne.master = (t.getD j default).master) :
    (t.getD i default).master = true → ((t.set j ne).getD i default).master = true := by
  intro hm
  by_cases hij : i = j
  · subst hij
    by_cases hlen : i < t.length
    · rw [getD_set_self _ _ _ hlen]
      rcases hne with h | h
      · exact h
      · rw [h]
        exact hm
    · rw [List.set_eq_of_length_le (by omega)]
      exact hm
  · rw [getD_set_ne _ _ _ _ hij]
    exact hm

theorem tableMaster_mono (cfg : List VMCfg) (s s' : GSt) (i : Nat)
    (h : VmmInitStep cfg s s') :
    tableMaster s i = true → tableMaster s' i = true := by
  cases h with
  | p1 c s hph hc hna hi =>
    unfold tableMaster
    simp only [vmm_init_pass1_step]
    split
    · split
      · dsimp only
        exact tableMaster_set_mono s.table _ i _ (Or.inl rfl)
      · split
        · dsimp only
          exact tableMaster_set_mono s.table _ i _ (Or.inr rfl)
        · dsimp only
          exact id
    · dsimp only
      exact id
  | p2 c s hph hc hna hi =>
    unfold tableMaster
    simp only [vmm_init_pass2_step]
    split
    · split
      · dsimp only
        exact tableMaster_set_mono s.table _ i _ (Or.inl rfl)
      · dsimp only
        exact tableMaster_set_mono s.table _ i _ (Or.inr rfl)
    · dsimp only
      exact id
  | bar1 s hph hall => exact id
  | bar2 s hph hall => exact id

/-- C2 (amended): master election.  Top level (vmm_init): in every
    reachable state of every interleaving, at most one CPU holds the
    master flag for assignment entry i; as soon as at least one CPU has
    claimed entry i, exactly one of the claimants is its master; the
    entry's master flag is set iff the entry has a claimant, and it is
    monotone (false to true) along every step, so it transitions exactly
    once, at the first claim.  Nested levels (vmm_create_vms): among the
    claim results of one level, at most one CPU sees ncpus == 0 and
    becomes level master; when the level's counter starts at 0 — in
    particular after the reset performed when the partition master is in
    the cohort — exactly one claimant becomes master provided the level
    claims at least one CPU.  (Without the counter reset the original
    claim fails: a stale non-zero counter yields a level with claimants
    but no master, see the counterexample.) -/
theorem one_master_per_vm :
    (∀ (cfg : List VMCfg) (n : Nat) (s : GSt), VmmInitReach cfg n s → ∀ i,
        mastersFor s i ≤ 1 ∧
        (1 ≤ claimedFor s i → mastersFor s i = 1) ∧
        (tableMaster s i = true ↔ 1 ≤ claimedFor s i)) ∧
    (∀ (cfg : List VMCfg) (s s' : GSt) (i : Nat), VmmInitStep cfg s s' →
        tableMaster s i = true → tableMaster s' i = true) ∧
    (∀ (aff num : Nat) (o1 o2 : List Nat) (n : Nat),
        mastersCount (claimLevel aff num o1 o2 n).2 ≤ 1) ∧
    (∀ (aff num : Nat) (o1 o2 : List Nat),
        (claimLevel aff num o1 o2 0).2 ≠ [] →
        mastersCount (claimLevel aff num o1 o2 0).2 = 1) := by
  refine ⟨?_, tableMaster_mono, claimLevel_masters_le_one, claimLevel_masters_eq_one⟩
  intro cfg n s hr i
  obtain ⟨h1, h2, h3, h4, h5, h6, h7⟩ := stInv_reach cfg n s hr
  have hm := h6 i
  have hcl := h5 i
  have hmono : mastersFor s i ≤ claimedFor s i := by
    unfold mastersFor claimedFor
    refine List.countP_mono_left ?_
    intro cs _ hq
    simp only [Bool.and_eq_true] at hq ⊢
    exact ⟨hq.1.1, hq.2⟩
  have hmt : 1 ≤ claimedFor s i → tableMaster s i = true := by
    intro hone
    unfold tableMaster
    by_contra hf
    have hfalse : (s.table.getD i default).master = false := by
      revert hf
      cases (s.table.getD i default).master <;> simp
    have := h4 i hfalse
    omega
  refine ⟨?_, ?_, ?_, ?_⟩
  · rw [hm]
    split
    · omega
    · omega
  · intro hone
    rw [hm]
    unfold tableMaster at hmt
    rw [if_pos (hmt hone)]
  · intro ht
    have h1m : mastersFor s i = 1 := by
      rw [hm]
      unfold tableMaster at ht
      rw [if_pos ht]
    omega
  · exact hmt

/-- C2 counterexample: in scenario S the construction reaches level G2
    with a stale counter (no reset: the partition master was not claimed
    at the parent level): CPU 1 is claimed there while the counter is 2,
    so the level has a claimant but elects no master. -/
theorem one_master_counterexample :
    (runS.1.log.getD 3 default).claimed = [(1, false)] ∧
    (runS.1.log.getD 3 default).claimed ≠ [] ∧
    mastersCount (runS.1.log.getD 3 default).claimed = 0 ∧
    (runS.1.log.getD 3 default).reset = false := by
  exact ⟨by decide, by decide, by decide, by decide⟩

theorem one_master_per_vm_witness :
    mastersFor (initG [⟨1, 1⟩] 1) 0 ≤ 1 ∧
    mastersCount (claimLevel 1 1 [0] [] 0).2 = 1 ∧
    tableMaster ⟨stZ.table,
      stZ.cst.map (fun cs => (⟨cs.assigned, cs.master, cs.vm_id, 0⟩ : CpuSt)), 1⟩ 0 = true := by
  refine ⟨(one_master_per_vm.1 [⟨1, 1⟩] 1 _ Relation.ReflTransGen.refl 0).1,
    one_master_per_vm.2.2.2 1 1 [0] [] (by decide), ?_⟩
  exact one_master_per_vm.2.1 cfgZ stZ _ 0
    (VmmInitStep.bar1 stZ rfl (by
      intro c hcz
      have hc0 : c = 0 := by
        have : stZ.cst.length = 1 := by decide
        omega
      subst hc0
      decide))
    (by decide)

theorem claim1_at_cap : ∀ (aff num : Nat) (o : List Nat) (n : Nat), num ≤ n →
    claim1 aff num o n = (n, []) := by
  intro aff num o
  induction o with
  | nil => intro n _; rfl
  | cons c rest ih =>
    intro n hn
    simp only [claim1]
    rw [if_neg (by
      intro hcon
      omega)]
    exact ih n hn

theorem claim2_at_cap : ∀ (num : Nat) (o : List Nat) (n : Nat), num ≤ n →
    claim2 num o n = (n, []) := by
  intro num o
  induction o with
  | nil => intro n _; rfl
  | cons c rest ih =>
    intro n hn
    simp only [claim2]
    rw [if_neg (by omega)]
    exact ih n hn

theorem claim1_fst_le : ∀ (aff num : Nat) (o : List Nat) (n : Nat),
    (claim1 aff num o n).1 ≤ max n num := by
  intro aff num o
  induction o with
  | nil => intro n; simp [claim1]
  | cons c rest ih =>
    intro n
    simp only [claim1]
    split
    · rename_i hcl
      dsimp only
      have := ih (n + 1)
      omega
    · exact ih n

theorem claim2_fst_le : ∀ (num : Nat) (o : List Nat) (n : Nat),
    (claim2 num o n).1 ≤ max n num := by
  intro num o
  induction o with
  | nil => intro n; simp [claim2]
  | cons c rest ih =>
    intro n
    simp only [claim2]
    split
    · rename_i hcl
      dsimp only
      have := ih (n + 1)
      omega
    · exact ih n

theorem claimLevel_fst_ge (aff num : Nat) (o1 o2 : List Nat) (n : Nat) :
    n ≤ (claimLevel aff num o1 o2 n).1 := by
  unfold claimLevel
  dsimp only
  rw [claim2_len, claim1_len]
  omega

theorem claimLevel_fst_le (aff num : Nat) (o1 o2 : List Nat) (n : Nat) :
    (claimLevel aff num o1 o2 n).1 ≤ max n num := by
  unfold claimLevel
  dsimp only
  have h1 := claim1_fst_le aff num o1 n
  have h2 := claim2_fst_le num
    (o2.filter (fun c => !((claim1 aff num o1 n).2.any (fun q => q.1 == c))))
    (claim1 aff num o1 n).1
  omega

theorem levelEnter_log (pm : Nat) (parts : List Nat) (st : PSt) :
    (levelEnter pm parts st).log = st.log := by
  unfold levelEnter
  split
  · rfl
  · rfl

theorem levelEnter_ncpus_of_reset (pm : Nat) (parts : List Nat) (st : PSt)
    (h : parts.contains pm = true) : (levelEnter pm parts st).ncpus = 0 := by
  unfold levelEnter
  rw [if_pos h]

theorem childStep_log (f : Option Nat → VMConfig → List Nat → Sched → PSt →
      PSt × Nat × List (Nat × Bool))
    (vm : Nat) (parts2 : List Nat) (acc : PSt × List Sched) (c : VMConfig) :
    (childStep f vm parts2 acc c).1.log
      = (f (some vm) c parts2 (acc.2.headD (Sched.mk [] [] [])) acc.1).1.log := by
  rfl

theorem foldl_childStep_log (Q : LevelLog → Prop) (fuel pm vm : Nat) (parts2 : List Nat)
    (hrec : ∀ (par : Option Nat) (cfg : VMConfig) (parts : List Nat) (sd : Sched) (st : PSt),
        (∀ e ∈ st.log, Q e) →
        ∀ e ∈ (vmm_create_vms fuel pm par cfg parts sd st).1.log, Q e) :
    ∀ (cs : List VMConfig) (acc : PSt × List Sched), (∀ e ∈ acc.1.log, Q e) →
      ∀ e ∈ ((cs.foldl (childStep (vmm_create_vms fuel pm) vm parts2) acc).1).log, Q e := by
  intro cs
  induction cs with
  | nil => intro acc hacc; exact hacc
  | cons c rest ihcs =>
    intro acc hacc
    rw [List.foldl_cons]
    refine ihcs _ ?_
    rw [childStep_log]
    exact hrec _ _ _ _ _ hacc

theorem createVms_log_sound (Q : LevelLog → Prop)
    (hQ : ∀ (par : Option Nat) (vm : Nat) (r : Bool) (n0 aff num : Nat) (o1 o2 : List Nat),
        (r = true → n0 = 0) →
        Q ⟨par, vm, r, n0, (claimLevel aff num o1 o2 n0).1, num,
            (claimLevel aff num o1 o2 n0).2⟩) :
    ∀ (fuel pm : Nat) (par : Option Nat) (cfg : VMConfig) (parts : List Nat) (sd : Sched)
      (st : PSt), (∀ e ∈ st.log, Q e) →
      ∀ e ∈ (vmm_create_vms fuel pm par cfg parts sd st).1.log, Q e := by
  intro fuel
  induction fuel with
  | zero => intro pm par cfg parts sd st hst; exact hst
  | succ fuel ih =>
    intro pm par cfg parts sd st hst
    cases cfg with
    | mk aff num cs =>
      show ∀ e ∈ (vmm_create_vms_level pm (vmm_create_vms fuel pm) par
          (VMConfig.mk aff num cs) parts sd st).1.log, Q e
      simp only [vmm_create_vms_level]
      have hst2 : ∀ e ∈ (levelEnter pm parts st).log
            ++ [⟨par, (levelEnter pm parts st).currVm, parts.contains pm,
                (levelEnter pm parts st).ncpus,
                (levelClaim aff num parts sd (levelEnter pm parts st).ncpus).1, num,
                (levelClaim aff num parts sd (levelEnter pm parts st).ncpus).2⟩], Q e := by
        intro e he
        rw [List.mem_append] at he
        rcases he with he | he
        · rw [levelEnter_log] at he
          exact hst e he
        · rw [List.mem_singleton] at he
          subst he
          exact hQ par _ _ _ aff num _ _
            (fun hr => levelEnter_ncpus_of_reset pm parts st hr)
      split
      · split
        · intro e he
          exact hst2 e he
        · intro e he
          exact hst2 e he
      · split
        · refine foldl_childStep_log Q fuel pm _ _ (ih pm) cs _ ?_
          intro e he
          exact hst2 e he
        · refine foldl_childStep_log Q fuel pm _ _ (ih pm) cs _ ?_
          intro e he
          exact hst2 e he

/-- C9 (amended): the per-level claiming of vmm_create_vms checks the
    capacity bound before every increment, in both passes and also for
    the claimant that becomes level master: from a counter at or above
    cpu_num neither pass claims or increments at all, and a level's final
    counter never exceeds max(start, cpu_num).  Consequently at every
    level at which the counter was reset (the partition master is in the
    cohort) the counter never exceeds the configuration's cpu_num, from 0
    at the start of the level to its final value.  (At a level whose
    cohort does not include the partition master the counter is stale and
    can stand above cpu_num for the whole level, see the
    counterexample.) -/
theorem level_counter_guarded :
    (∀ (aff num : Nat) (o : List Nat) (n : Nat), num ≤ n →
        claim1 aff num o n = (n, []) ∧ claim2 num o n = (n, [])) ∧
    (∀ (fuel pm : Nat) (par : Option Nat) (cfg : VMConfig) (parts : List Nat) (sd : Sched),
        ∀ e ∈ (vmm_create_vms fuel pm par cfg parts sd pstInit).1.log,
          e.startN ≤ e.endN ∧ e.endN ≤ max e.startN e.cpuNum ∧
          (e.reset = true → e.startN = 0 ∧ e.endN ≤ e.cpuNum)) := by
  constructor
  · intro aff num o n hn
    exact ⟨claim1_at_cap aff num o n hn, claim2_at_cap num o n hn⟩
  · intro fuel pm par cfg parts sd
    refine createVms_log_sound
      (fun e => e.startN ≤ e.endN ∧ e.endN ≤ max e.startN e.cpuNum ∧
        (e.reset = true → e.startN = 0 ∧ e.endN ≤ e.cpuNum))
      ?_ fuel pm par cfg parts sd pstInit ?_
    · intro par vm r n0 aff num o1 o2 hr
      dsimp only
      have hge := claimLevel_fst_ge aff num o1 o2 n0
      have hle := claimLevel_fst_le aff num o1 o2 n0
      refine ⟨hge, hle, ?_⟩
      intro hreset
      have h0 := hr hreset
      subst h0
      constructor
      · rfl
      · omega
    · intro e he
      simp [pstInit] at he

/-- C9 counterexample: in scenario S, level G1 runs with the stale
    counter 2 (partition master not in the cohort, no reset) while its
    required count is 1: during that whole level
    partition->init.ncpus = 2 > cpu_num = 1. -/
theorem level_counter_counterexample :
    (runS.1.log.getD 2 default).reset = false ∧
    (runS.1.log.getD 2 default).startN = 2 ∧
    (runS.1.log.getD 2 default).endN = 2 ∧
    (runS.1.log.getD 2 default).cpuNum = 1 ∧
    ¬((runS.1.log.getD 2 default).startN ≤ (runS.1.log.getD 2 default).cpuNum) := by
  exact ⟨by decide, by decide, by decide, by decide, by decide⟩

theorem level_counter_guarded_witness :
    (claim1 7 2 [4] 2 = (2, []) ∧ claim2 2 [4] 2 = (2, [])) ∧
    (runT.1.log.getD 0 default).startN = 0 ∧
    (runT.1.log.getD 0 default).endN ≤ (runT.1.log.getD 0 default).cpuNum := by
  refine ⟨level_counter_guarded.1 7 2 [4] 2 (by omega), ?_⟩
  exact (level_counter_guarded.2 3 0 none cfgT [0, 1] schedT
    (runT.1.log.getD 0 default) (by decide)).2.2 (by decide)

theorem edgesOfLog_append (L1 L2 : List LevelLog) :
    edgesOfLog (L1 ++ L2) = edgesOfLog L1 + edgesOfLog L2 := by
  unfold edgesOfLog
  rw [List.map_append, List.sum_append]

theorem edgesOfLog_single (e : LevelLog) :
    edgesOfLog [e] = parEdges e.par e.vm e.claimed := by
  unfold edgesOfLog
  simp

theorem parEdges_nil (par : Option Nat) (vm : Nat) : parEdges par vm [] = 0 := by
  unfold parEdges
  cases par with
  | none => rfl
  | some p => rfl

theorem foldl_childStep_edges (fuel pm vm : Nat) (parts2 : List Nat)
    (hrec : ∀ (par : Option Nat) (cfg : VMConfig) (parts : List Nat) (sd : Sched) (st : PSt),
        ∃ d : Multiset (Nat × Nat × Nat),
          (↑(vmm_create_vms fuel pm par cfg parts sd st).1.edges : Multiset (Nat × Nat × Nat))
              + parEdges par (vmm_create_vms fuel pm par cfg parts sd st).2.1
                  (vmm_create_vms fuel pm par cfg parts sd st).2.2
            = ↑st.edges + d ∧
          edgesOfLog (vmm_create_vms fuel pm par cfg parts sd st).1.log
            = edgesOfLog st.log + d) :
    ∀ (cs : List VMConfig) (acc : PSt × List Sched),
      ∃ d : Multiset (Nat × Nat × Nat),
        (↑((cs.foldl (childStep (vmm_create_vms fuel pm) vm parts2) acc).1).edges
            : Multiset (Nat × Nat × Nat))
          = ↑acc.1.edges + d ∧
        edgesOfLog ((cs.foldl (childStep (vmm_create_vms fuel pm) vm parts2) acc).1).log
          = edgesOfLog acc.1.log + d := by
  intro cs
  induction cs with
  | nil =>
    intro acc
    exact ⟨0, by simp, by simp⟩
  | cons c rest ihcs =>
    intro acc
    rw [List.foldl_cons]
    obtain ⟨d1, h1, h2⟩ := hrec (some vm) c parts2 (acc.2.headD (Sched.mk [] [] [])) acc.1
    obtain ⟨d2, g1, g2⟩ := ihcs (childStep (vmm_create_vms fuel pm) vm parts2 acc c)
    refine ⟨d1 + d2, ?_, ?_⟩
    · rw [g1]
      have hacc : (↑(childStep (vmm_create_vms fuel pm) vm parts2 acc c).1.edges
          : Multiset (Nat × Nat × Nat)) = ↑acc.1.edges + d1 := by
        show (↑((vmm_create_vms fuel pm (some vm) c parts2 (acc.2.headD (Sched.mk [] [] []))
            acc.1).1.edges ++ childEdges vm (vmm_create_vms fuel pm (some vm) c parts2
            (acc.2.headD (Sched.mk [] [] [])) acc.1)) : Multiset (Nat × Nat × Nat))
          = ↑acc.1.edges + d1
        rw [← Multiset.coe_add]  -- coe of append
        exact h1 ▸ rfl
      rw [hacc, add_assoc]
    · rw [g2]
      have hlog : edgesOfLog (childStep (vmm_create_vms fuel pm) vm parts2 acc c).1.log
          = edgesOfLog acc.1.log + d1 := by
        rw [childStep_log]
        exact h2
      rw [hlog, add_assoc]

theorem createVms_edges_delta :
    ∀ (fuel pm : Nat) (par : Option Nat) (cfg : VMConfig) (parts : List Nat) (sd : Sched)
      (st : PSt),
      ∃ d : Multiset (Nat × Nat × Nat),
        (↑(vmm_create_vms fuel pm par cfg parts sd st).1.edges : Multiset (Nat × Nat × Nat))
            + parEdges par (vmm_create_vms fuel pm par cfg parts sd st).2.1
                (vmm_create_vms fuel pm par cfg parts sd st).2.2
          = ↑st.edges + d ∧
        edgesOfLog (vmm_create_vms fuel pm par cfg parts sd st).1.log
          = edgesOfLog st.log + d := by
  intro fuel
  induction fuel with
  | zero =>
    intro pm par cfg parts sd st
    refine ⟨0, ?_, ?_⟩
    · show (↑st.edges : Multiset (Nat × Nat × Nat)) + parEdges par 0 [] = ↑st.edges + 0
      rw [parEdges_nil]
    · show edgesOfLog st.log = edgesOfLog st.log + 0
      rw [add_zero]
  | succ fuel ih =>
    intro pm par cfg parts sd st
    cases cfg with
    | mk aff num cs =>
      show ∃ d,
        (↑(vmm_create_vms_level pm (vmm_create_vms fuel pm) par (VMConfig.mk aff num cs)
            parts sd st).1.edges : Multiset (Nat × Nat × Nat))
            + parEdges par (vmm_create_vms_level pm (vmm_create_vms fuel pm) par
                (VMConfig.mk aff num cs) parts sd st).2.1
              (vmm_create_vms_level pm (vmm_create_vms fuel pm) par
                (VMConfig.mk aff num cs) parts sd st).2.2
          = ↑st.edges + d ∧
        edgesOfLog (vmm_create_vms_level pm (vmm_create_vms fuel pm) par
            (VMConfig.mk aff num cs) parts sd st).1.log
          = edgesOfLog st.log + d
      simp only [vmm_create_vms_level]
      have hEnterLog : edgesOfLog ((levelEnter pm parts st).log
            ++ [⟨par, (levelEnter pm parts st).currVm, parts.contains pm,
                (levelEnter pm parts st).ncpus,
                (levelClaim aff num parts sd (levelEnter pm parts st).ncpus).1, num,
                (levelClaim aff num parts sd (levelEnter pm parts st).ncpus).2⟩])
          = edgesOfLog st.log
            + parEdges par (levelEnter pm parts st).currVm
                (levelClaim aff num parts sd (levelEnter pm parts st).ncpus).2 := by
        rw [edgesOfLog_append, edgesOfLog_single, levelEnter_log]
      have hEnterEdges : (levelEnter pm parts st).edges = st.edges := by
        unfold levelEnter
        split
        · rfl
        · rfl
      split
      · rename_i hempty
        split
        · refine ⟨parEdges par (levelEnter pm parts st).currVm
            (levelClaim aff num parts sd (levelEnter pm parts st).ncpus).2, ?_, ?_⟩
          · dsimp only
            rw [hEnterEdges]
          · dsimp only
            exact hEnterLog
        · refine ⟨parEdges par (levelEnter pm parts st).currVm
            (levelClaim aff num parts sd (levelEnter pm parts st).ncpus).2, ?_, ?_⟩
          · dsimp only
            rw [hEnterEdges]
          · dsimp only
            exact hEnterLog
      · rename_i hnemp
        split
        · obtain ⟨dF, f1, f2⟩ := foldl_childStep_edges fuel pm
            (levelEnter pm parts st).currVm
            ((levelClaim aff num parts sd (levelEnter pm parts st).ncpus).2.map
              (fun q => q.1)) (ih pm) cs _
          refine ⟨parEdges par (levelEnter pm parts st).currVm
              (levelClaim aff num parts sd (levelEnter pm parts st).ncpus).2 + dF, ?_, ?_⟩
          · dsimp only
            rw [f1, hEnterEdges]
            abel
          · dsimp only
            rw [f2, hEnterLog]
            abel
        · obtain ⟨dF, f1, f2⟩ := foldl_childStep_edges fuel pm
            (levelEnter pm parts st).currVm
            ((levelClaim aff num parts sd (levelEnter pm parts st).ncpus).2.map
              (fun q => q.1)) (ih pm) cs _
          refine ⟨parEdges par (levelEnter pm parts st).currVm
              (levelClaim aff num parts sd (levelEnter pm parts st).ncpus).2 + dF, ?_, ?_⟩
          · dsimp only
            rw [f1, hEnterEdges]
            abel
          · dsimp only
            rw [f2, hEnterLog]
            abel

/-- C4 (amended): for every run of the builder from the clean partition
    state, the recorded child-relationship nodes are exactly the ones the
    level log accounts for: for each executed non-top level with parent
    vm p, one node (p, cpu, level vm) per CPU claimed into that level —
    every claimed CPU appends a node for its own parent vcpu, whether or
    not it is the level master (the level master appends one only if it
    is itself claimed into the child). -/
theorem child_nodes_pushed_by_claimed :
    ∀ (fuel pm : Nat) (cfg : VMConfig) (parts : List Nat) (sd : Sched),
      (↑(vmm_create_vms fuel pm none cfg parts sd pstInit).1.edges
          : Multiset (Nat × Nat × Nat))
        = edgesOfLog (vmm_create_vms fuel pm none cfg parts sd pstInit).1.log := by
  intro fuel pm cfg parts sd
  obtain ⟨d, h1, h2⟩ := createVms_edges_delta fuel pm none cfg parts sd pstInit
  rw [show parEdges none (vmm_create_vms fuel pm none cfg parts sd pstInit).2.1
      (vmm_create_vms fuel pm none cfg parts sd pstInit).2.2 = 0 from rfl, add_zero] at h1
  rw [h2, h1]
  rfl

/-- C4 counterexample: in scenario T both CPUs are claimed into the
    child; CPU 1 is not the elected master at either level (its master
    flag is false in both level logs), yet the node (1, 1, 2) recorded on
    CPU 1's parent vcpu list is present — a non-master CPU iterated the
    child list and appended a child-relationship node, and two nodes were
    appended for the single configuration edge rather than one by the
    master alone. -/
theorem child_nodes_counterexample :
    runT.1.edges = [(1, 0, 2), (1, 1, 2)] ∧
    (runT.1.log.getD 0 default).claimed = [(0, true), (1, false)] ∧
    (runT.1.log.getD 1 default).claimed = [(0, true), (1, false)] := by
  exact ⟨by decide, by decide, by decide⟩

theorem numFold_fst_sum (g : Nat → VMConfig → Nat × List (Nat × Nat))
    (w : VMConfig → Nat) (hg : ∀ n c, (g n c).1 = n + w c) (v : Nat) :
    ∀ (cs : List VMConfig) (accN : Nat) (accE : List (Nat × Nat)),
      (numFold g v cs (accN, accE)).1 = accN + (cs.map w).sum := by
  intro cs
  induction cs with
  | nil => intro accN accE; simp [numFold]
  | cons c rest ih =>
    intro accN accE
    unfold numFold
    rw [List.foldl_cons]
    have := ih (g accN c).1 (accE ++ (g accN c).2 ++ [(v, accN)])
    unfold numFold at this
    dsimp only
    rw [this, hg accN c]
    simp only [List.map_cons, List.sum_cons]
    omega

theorem numFold_snd_acc (g : Nat → VMConfig → Nat × List (Nat × Nat)) (v : Nat) :
    ∀ (cs : List VMConfig) (accN : Nat) (accE : List (Nat × Nat)),
      (numFold g v cs (accN, accE)).2 = accE ++ (numFold g v cs (accN, [])).2 := by
  intro cs
  induction cs with
  | nil => intro accN accE; simp [numFold]
  | cons c rest ih =>
    intro accN accE
    unfold numFold
    rw [List.foldl_cons, List.foldl_cons]
    dsimp only
    show (numFold g v rest ((g accN c).1, accE ++ (g accN c).2 ++ [(v, accN)])).2
      = accE ++ (numFold g v rest ((g accN c).1, [] ++ (g accN c).2 ++ [(v, accN)])).2
    rw [ih (g accN c).1 (accE ++ (g accN c).2 ++ [(v, accN)]),
      ih (g accN c).1 ([] ++ (g accN c).2 ++ [(v, accN)])]
    simp [List.append_assoc]

theorem countF_succ (k aff num : Nat) (cs : List VMConfig) :
    countF (k + 1) (VMConfig.mk aff num cs) = 1 + (cs.map (countF k)).sum := by
  rfl

theorem numberF_fst : ∀ (k next : Nat) (cfg : VMConfig),
    (numberF k next cfg).1 = next + countF k cfg := by
  intro k
  induction k with
  | zero => intro next cfg; rfl
  | succ k ih =>
    intro next cfg
    cases cfg with
    | mk aff num cs =>
      show (numFold (numberF k) next cs (next + 1, [])).1 = next + countF (k + 1) (VMConfig.mk aff num cs)
      rw [numFold_fst_sum (numberF k) (countF k) (fun n c => ih n c) next cs (next + 1) [],
        countF_succ]
      omega

theorem GoodF_succ (fuel pm aff num : Nat) (cs : List VMConfig)
    (o1 o2 : List Nat) (sds : List Sched)
    (h : GoodF (fuel + 1) pm (VMConfig.mk aff num cs) (Sched.mk o1 o2 sds) = true) :
    o1.head? = some pm ∧ aff.testBit pm = true ∧ 0 < num ∧ o1.Nodup ∧ o2.Nodup ∧
    cs.length ≤ sds.length ∧ ∀ p ∈ cs.zip sds, GoodF fuel pm p.1 p.2 = true := by
  have h' : GoodStep pm (GoodF fuel pm) (VMConfig.mk aff num cs) (Sched.mk o1 o2 sds)
      = true := h
  simp only [GoodStep, Bool.and_eq_true, decide_eq_true_eq, List.all_eq_true,
    beq_iff_eq] at h'
  exact ⟨h'.1.1.1.1.1.1, h'.1.1.1.1.1.2, h'.1.1.1.1.2, h'.1.1.1.2, h'.1.1.2, h'.1.2,
    fun p hp => h'.2 p hp⟩

theorem contains_single_iff (pm c : Nat) : (([pm] : List Nat).contains c = true) ↔ c = pm := by
  simp

theorem filter_head_of_head (p : Nat → Bool) :
    ∀ (o : List Nat) (pm : Nat), o.head? = some pm → p pm = true →
      (o.filter p).head? = some pm := by
  intro o pm h hp
  cases o with
  | nil => simp at h
  | cons a rest =>
    have ha : a = pm := by
      simp only [List.head?_cons, Option.some.injEq] at h
      exact h
    subst ha
    rw [List.filter_cons, if_pos hp]
    rfl

theorem filter_contains_single (o : List Nat) (pm : Nat)
    (hh : o.head? = some pm) (hnd : o.Nodup) :
    o.filter (fun c => ([pm] : List Nat).contains c) = [pm] := by
  cases o with
  | nil => simp at hh
  | cons a rest =>
    have ha : a = pm := by
      simp only [List.head?_cons, Option.some.injEq] at hh
      exact hh
    subst ha
    have hnot : a ∉ rest := (List.nodup_cons.mp hnd).1
    rw [List.filter_cons, if_pos (by rw [contains_single_iff])]
    have hrest : rest.filter (fun c => (([a] : List Nat).contains c)) = [] := by
      rw [List.filter_eq_nil_iff]
      intro b hb hcon
      rw [contains_single_iff] at hcon
      subst hcon
      exact hnot hb
    rw [hrest]

theorem levelClaim_single (aff num : Nat) (sd : Sched) (pm : Nat)
    (h1 : sd.ord1.head? = some pm) (hnd : sd.ord1.Nodup)
    (hb : aff.testBit pm = true) (hn : 0 < num) :
    levelClaim aff num [pm] sd 0 = (1, [(pm, true)]) := by
  unfold levelClaim claimLevel
  rw [filter_contains_single sd.ord1 pm h1 hnd]
  have hc1 : claim1 aff num [pm] 0 = (1, [(pm, true)]) := by
    simp only [claim1]
    rw [if_pos ⟨hn, hb⟩]
    rfl
  rw [hc1]
  dsimp only
  have hrem : (sd.ord2.filter (fun c => (([pm] : List Nat).contains c))).filter
      (fun c => !([((pm : Nat), true)].any (fun q => q.1 == c))) = [] := by
    rw [List.filter_eq_nil_iff]
    intro b hb2 hcon
    have hbpm : b = pm := by
      have := List.of_mem_filter hb2
      rw [contains_single_iff] at this
      exact this
    subst hbpm
    simp at hcon
  rw [hrem]
  rfl

theorem levelClaim_head (aff num : Nat) (parts : List Nat) (sd : Sched) (pm : Nat)
    (h1 : sd.ord1.head? = some pm) (hpm : parts.contains pm = true)
    (hb : aff.testBit pm = true) (hn : 0 < num) :
    ∃ (n1 : Nat) (cl : List (Nat × Bool)),
      levelClaim aff num parts sd 0 = (n1, (pm, true) :: cl) := by
  unfold levelClaim claimLevel
  have hf := filter_head_of_head (fun c => parts.contains c) sd.ord1 pm h1 hpm
  cases hsplit : sd.ord1.filter (fun c => parts.contains c) with
  | nil =>
    rw [hsplit] at hf
    simp at hf
  | cons a r =>
    rw [hsplit] at hf
    have ha : a = pm := by
      simp only [List.head?_cons, Option.some.injEq] at hf
      exact hf
    subst ha
    dsimp only
    simp only [claim1]
    rw [if_pos ⟨hn, hb⟩]
    exact ⟨_, _, rfl⟩

theorem createVms_single_fold (fuel pm vm : Nat)
    (IH : ∀ (par : Option Nat) (cfg : VMConfig) (sd : Sched) (st : PSt),
        GoodF fuel pm cfg sd = true →
        (vmm_create_vms fuel pm par cfg [pm] sd st).2.1 = st.nextVm ∧
        (vmm_create_vms fuel pm par cfg [pm] sd st).2.2 = [(pm, true)] ∧
        (vmm_create_vms fuel pm par cfg [pm] sd st).1.nextVm
          = st.nextVm + countF fuel cfg ∧
        (vmm_create_vms fuel pm par cfg [pm] sd st).1.edges
          = st.edges ++ (numberF fuel st.nextVm cfg).2.map (fun q => (q.1, pm, q.2))) :
    ∀ (cs : List VMConfig) (sds : List Sched) (st : PSt),
      cs.length ≤ sds.length →
      (∀ p ∈ cs.zip sds, GoodF fuel pm p.1 p.2 = true) →
      ((cs.foldl (childStep (vmm_create_vms fuel pm) vm [pm]) (st, sds)).1.nextVm
          = st.nextVm + (cs.map (countF fuel)).sum) ∧
      ((cs.foldl (childStep (vmm_create_vms fuel pm) vm [pm]) (st, sds)).1.edges
          = st.edges ++ (numFold (numberF fuel) vm cs (st.nextVm, [])).2.map
              (fun q => (q.1, pm, q.2))) := by
  intro cs
  induction cs with
  | nil =>
    intro sds st _ _
    constructor
    · simp
    · simp [numFold]
  | cons c rest ihcs =>
    intro sds st hlen hzip
    cases sds with
    | nil => simp at hlen
    | cons s0 sds2 =>
      rw [List.foldl_cons]
      have hgood0 : GoodF fuel pm c s0 = true := by
        refine hzip (c, s0) ?_
        rw [List.zip_cons_cons]
        exact List.mem_cons_self _ _
      obtain ⟨hv, hcl, hn, he⟩ := IH (some vm) c s0 st hgood0
      have hstep : childStep (vmm_create_vms fuel pm) vm [pm] (st, s0 :: sds2) c
          = ({ (vmm_create_vms fuel pm (some vm) c [pm] s0 st).1 with
              edges := (vmm_create_vms fuel pm (some vm) c [pm] s0 st).1.edges
                ++ [(vm, pm, st.nextVm)] }, sds2) := by
        unfold childStep childEdges
        dsimp only
        simp only [List.headD_cons]
        rw [hcl, hv]
        rfl
      rw [hstep]
      have hlen2 : rest.length ≤ sds2.length := by
        simp only [List.length_cons] at hlen
        omega
      have hzip2 : ∀ p ∈ rest.zip sds2, GoodF fuel pm p.1 p.2 = true := by
        intro p hp
        refine hzip p ?_
        rw [List.zip_cons_cons]
        exact List.mem_cons_of_mem _ hp
      obtain ⟨ihn, ihe⟩ := ihcs sds2
        ({ (vmm_create_vms fuel pm (some vm) c [pm] s0 st).1 with
            edges := (vmm_create_vms fuel pm (some vm) c [pm] s0 st).1.edges
              ++ [(vm, pm, st.nextVm)] }) hlen2 hzip2
      constructor
      · rw [ihn]
        dsimp only
        rw [hn]
        simp only [List.map_cons, List.sum_cons]
        omega
      · rw [ihe]
        dsimp only
        rw [he, hn]
        have hnum : (numFold (numberF fuel) vm (c :: rest)
              (st.nextVm, ([] : List (Nat × Nat)))).2
            = ((numberF fuel st.nextVm c).2 ++ [(vm, st.nextVm)])
              ++ (numFold (numberF fuel) vm rest (st.nextVm + countF fuel c, [])).2 := by
          unfold numFold
          rw [List.foldl_cons]
          dsimp only
          have hacc := numFold_snd_acc (numberF fuel) vm rest
            (numberF fuel st.nextVm c).1
            ([] ++ (numberF fuel st.nextVm c).2 ++ [(vm, st.nextVm)])
          unfold numFold at hacc
          rw [hacc, numberF_fst]
          simp
        rw [hnum]
        simp [List.map_append, List.append_assoc]

theorem createVms_single_cohort :
    ∀ (fuel pm : Nat) (par : Option Nat) (cfg : VMConfig) (sd : Sched) (st : PSt),
      GoodF fuel pm cfg sd = true →
      (vmm_create_vms fuel pm par cfg [pm] sd st).2.1 = st.nextVm ∧
      (vmm_create_vms fuel pm par cfg [pm] sd st).2.2 = [(pm, true)] ∧
      (vmm_create_vms fuel pm par cfg [pm] sd st).1.nextVm
        = st.nextVm + countF fuel cfg ∧
      (vmm_create_vms fuel pm par cfg [pm] sd st).1.edges
        = st.edges ++ (numberF fuel st.nextVm cfg).2.map (fun q => (q.1, pm, q.2)) := by
  intro fuel
  induction fuel with
  | zero =>
    intro pm par cfg sd st h
    simp [GoodF] at h
  | succ fuel ih =>
    intro pm par cfg sd st h
    cases cfg with
    | mk aff num cs =>
      cases sd with
      | mk o1 o2 sds =>
        obtain ⟨hh, hb, hn, hnd1, hnd2, hlen, hzip⟩ :=
          GoodF_succ fuel pm aff num cs o1 o2 sds h
        show
          (vmm_create_vms_level pm (vmm_create_vms fuel pm) par (VMConfig.mk aff num cs)
            [pm] (Sched.mk o1 o2 sds) st).2.1 = st.nextVm ∧
          (vmm_create_vms_level pm (vmm_create_vms fuel pm) par (VMConfig.mk aff num cs)
            [pm] (Sched.mk o1 o2 sds) st).2.2 = [(pm, true)] ∧
          (vmm_create_vms_level pm (vmm_create_vms fuel pm) par (VMConfig.mk aff num cs)
            [pm] (Sched.mk o1 o2 sds) st).1.nextVm
              = st.nextVm + countF (fuel + 1) (VMConfig.mk aff num cs) ∧
          (vmm_create_vms_level pm (vmm_create_vms fuel pm) par (VMConfig.mk aff num cs)
            [pm] (Sched.mk o1 o2 sds) st).1.edges
              = st.edges ++ (numberF (fuel + 1) st.nextVm (VMConfig.mk aff num cs)).2.map
                  (fun q => (q.1, pm, q.2))
        have hres : (([pm] : List Nat)).contains pm = true := by simp
        have hclaim : levelClaim aff num [pm] (Sched.mk o1 o2 sds)
            (levelEnter pm [pm] st).ncpus = (1, [(pm, true)]) := by
          rw [show (levelEnter pm [pm] st).ncpus = 0 from
            levelEnter_ncpus_of_reset pm [pm] st hres]
          exact levelClaim_single aff num (Sched.mk o1 o2 sds) pm hh hnd1 hb hn
        have hEnter : levelEnter pm [pm] st
            = { st with currVm := st.nextVm, nextVm := st.nextVm + 1, ncpus := 0 } := by
          unfold levelEnter
          rw [if_pos hres]
        simp only [vmm_create_vms_level]
        rw [hclaim]
        dsimp only
        rw [if_pos (show (([((pm : Nat), true)]).any (fun q => q.2)) = true from rfl)]
        rw [if_neg (show ¬((([((pm : Nat), true)] : List (Nat × Bool)).isEmpty) = true)
          by simp)]
        dsimp only
        refine ⟨?_, rfl, ?_, ?_⟩
        · rw [hEnter]
        · obtain ⟨hfn, hfe⟩ := createVms_single_fold fuel pm (levelEnter pm [pm] st).currVm
            (ih pm) cs sds
            { currVm := (levelEnter pm [pm] st).currVm,
              ncpus := 1,
              nextVm := (levelEnter pm [pm] st).nextVm,
              nextVmid := (levelEnter pm [pm] st).nextVmid + 1,
              edges := (levelEnter pm [pm] st).edges,
              log := (levelEnter pm [pm] st).log
                ++ [⟨par, (levelEnter pm [pm] st).currVm, ([pm] : List Nat).contains pm,
                    (levelEnter pm [pm] st).ncpus, 1, num, [(pm, true)]⟩] }
            hlen hzip
          simp only [show List.map (fun q => (q : Nat × Bool).1) [(pm, true)] = [pm]
              from rfl,
            show (Sched.mk o1 o2 sds).children = sds from rfl]
          rw [hfn]
          rw [hEnter]
          dsimp only
          rw [countF_succ]
          omega
        · obtain ⟨hfn, hfe⟩ := createVms_single_fold fuel pm (levelEnter pm [pm] st).currVm
            (ih pm) cs sds
            { currVm := (levelEnter pm [pm] st).currVm,
              ncpus := 1,
              nextVm := (levelEnter pm [pm] st).nextVm,
              nextVmid := (levelEnter pm [pm] st).nextVmid + 1,
              edges := (levelEnter pm [pm] st).edges,
              log := (levelEnter pm [pm] st).log
                ++ [⟨par, (levelEnter pm [pm] st).currVm, ([pm] : List Nat).contains pm,
                    (levelEnter pm [pm] st).ncpus, 1, num, [(pm, true)]⟩] }
            hlen hzip
          simp only [show List.map (fun q => (q : Nat × Bool).1) [(pm, true)] = [pm]
              from rfl,
            show (Sched.mk o1 o2 sds).children = sds from rfl]
          rw [hfe]
          rw [show numberF (fuel + 1) st.nextVm (VMConfig.mk aff num cs)
              = numFold (numberF fuel) st.nextVm cs (st.nextVm + 1, []) from rfl]
          rw [hEnter]

theorem createVms_cohort_fold (fuel pm vm : Nat) (parts2 : List Nat)
    (IH : ∀ (par : Option Nat) (cfg : VMConfig) (parts : List Nat) (sd : Sched) (st : PSt),
        GoodF fuel pm cfg sd = true → parts.contains pm = true →
        (vmm_create_vms fuel pm par cfg parts sd st).1.nextVm
          = st.nextVm + countF fuel cfg)
    (hpm2 : parts2.contains pm = true) :
    ∀ (cs : List VMConfig) (sds : List Sched) (st : PSt),
      cs.length ≤ sds.length →
      (∀ p ∈ cs.zip sds, GoodF fuel pm p.1 p.2 = true) →
      (cs.foldl (childStep (vmm_create_vms fuel pm) vm parts2) (st, sds)).1.nextVm
        = st.nextVm + (cs.map (countF fuel)).sum := by
  intro cs
  induction cs with
  | nil => intro sds st _ _; simp
  | cons c rest ihcs =>
    intro sds st hlen hzip
    cases sds with
    | nil => simp at hlen
    | cons s0 sds2 =>
      rw [List.foldl_cons]
      have hstep : childStep (vmm_create_vms fuel pm) vm parts2 (st, s0 :: sds2) c
          = ({ (vmm_create_vms fuel pm (some vm) c parts2 s0 st).1 with
              edges := (vmm_create_vms fuel pm (some vm) c parts2 s0 st).1.edges
                ++ childEdges vm (vmm_create_vms fuel pm (some vm) c parts2 s0 st) },
            sds2) := by
        unfold childStep
        dsimp only
        simp only [List.headD_cons]
        rfl
      rw [hstep]
      have hg0 : GoodF fuel pm c s0 = true := by
        refine hzip (c, s0) ?_
        rw [List.zip_cons_cons]
        exact List.mem_cons_self _ _
      have hzip2 : ∀ p ∈ rest.zip sds2, GoodF fuel pm p.1 p.2 = true := by
        intro p hp
        refine hzip p ?_
        rw [List.zip_cons_cons]
        exact List.mem_cons_of_mem _ hp
      rw [ihcs sds2 _ (by simp only [List.length_cons] at hlen; omega) hzip2]
      dsimp only
      rw [IH (some vm) c parts2 s0 st hg0 hpm2]
      simp only [List.map_cons, List.sum_cons]
      omega

theorem createVms_cohort_count :
    ∀ (fuel pm : Nat) (par : Option Nat) (cfg : VMConfig) (parts : List Nat) (sd : Sched)
      (st : PSt), GoodF fuel pm cfg sd = true → parts.contains pm = true →
      (vmm_create_vms fuel pm par cfg parts sd st).1.nextVm
        = st.nextVm + countF fuel cfg := by
  intro fuel
  induction fuel with
  | zero =>
    intro pm par cfg parts sd st h _
    simp [GoodF] at h
  | succ fuel ih =>
    intro pm par cfg parts sd st h hpm
    cases cfg with
    | mk aff num cs =>
      cases sd with
      | mk o1 o2 sds =>
        obtain ⟨hh, hb, hn, hnd1, hnd2, hlen, hzip⟩ :=
          GoodF_succ fuel pm aff num cs o1 o2 sds h
        obtain ⟨n1, cl, hclaim0⟩ :=
          levelClaim_head aff num parts (Sched.mk o1 o2 sds) pm hh hpm hb hn
        have hclaim : levelClaim aff num parts (Sched.mk o1 o2 sds)
            (levelEnter pm parts st).ncpus = (n1, (pm, true) :: cl) := by
          rw [levelEnter_ncpus_of_reset pm parts st hpm]
          exact hclaim0
        have hEnter : levelEnter pm parts st
            = { st with currVm := st.nextVm, nextVm := st.nextVm + 1, ncpus := 0 } := by
          unfold levelEnter
          rw [if_pos hpm]
        show (vmm_create_vms_level pm (vmm_create_vms fuel pm) par (VMConfig.mk aff num cs)
            parts (Sched.mk o1 o2 sds) st).1.nextVm
          = st.nextVm + countF (fuel + 1) (VMConfig.mk aff num cs)
        simp only [vmm_create_vms_level]
        rw [hclaim]
        dsimp only
        rw [if_pos (show (((pm, true) :: cl).any (fun q => q.2)) = true by simp)]
        rw [if_neg (show ¬((((pm, true) :: cl) : List (Nat × Bool)).isEmpty = true) by simp)]
        dsimp only
        have hpm2 : (((pm, true) :: cl).map (fun q => q.1)).contains pm = true := by
          simp
        rw [show (Sched.mk o1 o2 sds).children = sds from rfl]
        rw [createVms_cohort_fold fuel pm (levelEnter pm parts st).currVm
          (((pm, true) :: cl).map (fun q => q.1)) (ih pm) hpm2 cs sds
          { currVm := (levelEnter pm parts st).currVm,
            ncpus := n1,
            nextVm := (levelEnter pm parts st).nextVm,
            nextVmid := (levelEnter pm parts st).nextVmid + 1,
            edges := (levelEnter pm parts st).edges,
            log := (levelEnter pm parts st).log
              ++ [⟨par, (levelEnter pm parts st).currVm, parts.contains pm,
                  (levelEnter pm parts st).ncpus, n1, num, (pm, true) :: cl⟩] }
          hlen hzip]
        rw [hEnter]
        dsimp only
        rw [countF_succ]
        omega

/-- C3 (amended): exactness of the VM tree builder under the conditions
    the code actually needs.  (i) When the partition master claims first
    at every node (it heads every pass-1 lock order, every node's
    affinity contains it and requires at least one CPU, the orders are
    duplicate-free and every child has a schedule — GoodF), a cohort
    containing the partition master allocates exactly C vm structs, one
    per configuration node (the allocation counter advances by countF).
    (ii) With the single-CPU cohort [pm] the recorded child-relationship
    nodes correspond one-to-one to the configuration tree's edges: they
    are exactly the numbered tree edges (parent struct id, pm, child
    struct id) in construction order.  In general (see C4 and the
    counterexample) a child claimed by k CPUs yields k recorded nodes for
    its single configuration edge, so the original one-node-per-edge claim
    fails. -/
theorem vm_tree_exactness :
    (∀ (fuel pm : Nat) (par : Option Nat) (cfg : VMConfig) (parts : List Nat) (sd : Sched)
        (st : PSt), GoodF fuel pm cfg sd = true → parts.contains pm = true →
        (vmm_create_vms fuel pm par cfg parts sd st).1.nextVm
          = st.nextVm + countF fuel cfg) ∧
    (∀ (fuel pm : Nat) (par : Option Nat) (cfg : VMConfig) (sd : Sched) (st : PSt),
        GoodF fuel pm cfg sd = true →
        (vmm_create_vms fuel pm par cfg [pm] sd st).1.edges
          = st.edges
            ++ (numberF fuel st.nextVm cfg).2.map (fun q => (q.1, pm, q.2))) := by
  constructor
  · exact createVms_cohort_count
  · intro fuel pm par cfg sd st h
    exact (createVms_single_cohort fuel pm par cfg sd st h).2.2.2

/-- C3 counterexample: scenario T is a configuration tree with C = 2
    nodes and a single edge; the run allocates the two vm structs, but
    records two child-relationship nodes — one per CPU claimed into the
    child — for the single configuration edge, so the recorded edges do
    not match the configuration edges one-to-one. -/
theorem vm_tree_counterexample :
    countF 3 cfgT = 2 ∧
    runT.1.nextVm = 3 ∧
    (numberF 3 1 cfgT).2 = [(1, 2)] ∧
    runT.1.edges = [(1, 0, 2), (1, 1, 2)] ∧
    runT.1.edges.length ≠ (numberF 3 1 cfgT).2.length := by
  exact ⟨by decide, by decide, by decide, by decide, by decide⟩

theorem vm_tree_exactness_witness :
    (vmm_create_vms 2 0 none (VMConfig.mk 1 1 [VMConfig.mk 1 1 []]) [0, 5]
        (Sched.mk [0] [0] [Sched.mk [0] [0] []]) pstInit).1.nextVm
      = pstInit.nextVm + countF 2 (VMConfig.mk 1 1 [VMConfig.mk 1 1 []]) ∧
    (vmm_create_vms 2 0 none (VMConfig.mk 1 1 [VMConfig.mk 1 1 []]) [0]
        (Sched.mk [0] [0] [Sched.mk [0] [0] []]) pstInit).1.edges
      = pstInit.edges
        ++ (numberF 2 pstInit.nextVm (VMConfig.mk 1 1 [VMConfig.mk 1 1 []])).2.map
            (fun q => (q.1, 0, q.2)) := by
  constructor
  · exact vm_tree_exactness.1 2 0 none (VMConfig.mk 1 1 [VMConfig.mk 1 1 []]) [0, 5]
      (Sched.mk [0] [0] [Sched.mk [0] [0] []]) pstInit (by decide) (by decide)
  · exact vm_tree_exactness.2 2 0 none (VMConfig.mk 1 1 [VMConfig.mk 1 1 []])
      (Sched.mk [0] [0] [Sched.mk [0] [0] []]) pstInit (by decide)
